import Mathlib

/-!
Shallow embedding of the JSON message codec of
shell/platform/linux/fl_json_message_codec.cc.

Bytes are modelled as natural numbers (0 to 255) and buffers as lists of
bytes consumed from the front.  The C cursor primitive current_char
returns the NUL sentinel 0 at or past the end of the input, which
List.headD 0 reproduces; next_char is List.tail.  Signed 64-bit
arithmetic (int64_t) is modelled by explicit reduction modulo 2 ^ 64
re-centered into the signed range (i64 below).  IEEE doubles are
modelled as exact rationals extended with a nan value and the two
infinities; arithmetic on them is exact, except that a result of
magnitude at least 2 ^ 1024 overflows to an infinity and that a power
of ten with exponent at least 309 is an infinity, mirroring IEEE
double overflow.  Rounding of in-range results, underflow to zero and
the negative zero are not modelled.
-/

namespace FlJson

/-- Error kinds of the codec, one constructor per error code used by the
source file.  additionalData carries the reported count of unused bytes. -/
inductive Err where
  | outOfData
  | additionalData (unused : Nat)
  | failed
  | missingComma
  | invalidNumber
  | invalidObjectKeyType
  | invalidStringCharacter
  | invalidStringEscapeSequence
  | invalidStringUnicodeEscape
  | noFuel
deriving DecidableEq, Repr

/-- Decidable equality of results, so concrete runs of the codec can be
checked by decide. -/
instance {ε α : Type} [DecidableEq ε] [DecidableEq α] : DecidableEq (Except ε α)
  | .error e, .error f =>
    if h : e = f then .isTrue (by rw [h]) else .isFalse (by simp [h])
  | .ok a, .ok b =>
    if h : a = b then .isTrue (by rw [h]) else .isFalse (by simp [h])
  | .error _, .ok _ => .isFalse (by simp)
  | .ok _, .error _ => .isFalse (by simp)

/-- Reduction of an integer into the signed 64-bit range, the value a C
int64_t holds after wrapping two's-complement arithmetic. -/
def i64 (x : Int) : Int := (x + 2 ^ 63) % 2 ^ 64 - 2 ^ 63

/-- Model of a C double: an exact rational when finite, or nan, or one of
the infinities. -/
inductive JFloat where
  | finite (q : ℚ)
  | nan
  | inf
  | neginf
deriving DecidableEq, Repr

/-- Model of isfinite from math.h. -/
def JFloat.isfinite : JFloat → Bool
  | .finite _ => true
  | _ => false

/-- The first rational no double reaches: 2 ^ 1024, built with divInt so
the kernel can evaluate comparisons against it. -/
def maxD : ℚ := Rat.divInt (2 ^ 1024) 1

/-- Overflow clamp: a real result of magnitude at least 2 ^ 1024 is not
representable as a double and becomes an infinity. -/
def clampD (q : ℚ) : JFloat :=
  if maxD ≤ q then .inf
  else if q ≤ -maxD then .neginf
  else .finite q

/-- The tagged value model (fl_value.h).  Strings are byte lists (UTF-8 C
strings); maps are ordered key-value pair lists. -/
inductive FlValue where
  | null
  | bool (b : Bool)
  | int (n : Int)
  | float (x : JFloat)
  | string (s : List Nat)
  | uint8List (xs : List Nat)
  | int32List (xs : List Int)
  | int64List (xs : List Int)
  | floatList (xs : List JFloat)
  | list (xs : List FlValue)
  | map (ps : List (FlValue × FlValue))
deriving Repr

/-- Structural induction principle for FlValue with element hypotheses for
the nested lists (the derived recursor is unusable for nested lists). -/
def FlValue.recOn2 {P : FlValue → Prop}
    (hnull : P .null)
    (hbool : ∀ b, P (.bool b))
    (hint : ∀ n, P (.int n))
    (hfloat : ∀ x, P (.float x))
    (hstring : ∀ s, P (.string s))
    (hu8 : ∀ xs, P (.uint8List xs))
    (hi32 : ∀ xs, P (.int32List xs))
    (hi64 : ∀ xs, P (.int64List xs))
    (hfl : ∀ xs, P (.floatList xs))
    (hlist : ∀ xs, (∀ x ∈ xs, P x) → P (.list xs))
    (hmap : ∀ ps, (∀ p ∈ ps, P p.1 ∧ P p.2) → P (.map ps)) :
    ∀ v, P v
  | .null => hnull
  | .bool b => hbool b
  | .int n => hint n
  | .float x => hfloat x
  | .string s => hstring s
  | .uint8List xs => hu8 xs
  | .int32List xs => hi32 xs
  | .int64List xs => hi64 xs
  | .floatList xs => hfl xs
  | .list xs =>
    hlist xs (fun x _ =>
      FlValue.recOn2 hnull hbool hint hfloat hstring hu8 hi32 hi64 hfl hlist hmap x)
  | .map ps =>
    hmap ps (fun p _ =>
      ⟨FlValue.recOn2 hnull hbool hint hfloat hstring hu8 hi32 hi64 hfl hlist hmap p.1,
       FlValue.recOn2 hnull hbool hint hfloat hstring hu8 hi32 hi64 hfl hlist hmap p.2⟩)
termination_by v => sizeOf v
decreasing_by
  · rename_i hx
    have := List.sizeOf_lt_of_mem hx
    simp only [FlValue.list.sizeOf_spec]
    omega
  · rename_i hp
    have := List.sizeOf_lt_of_mem hp
    obtain ⟨a, b⟩ := p
    simp only [FlValue.map.sizeOf_spec, Prod.mk.sizeOf_spec] at *
    omega
  · rename_i hp
    have := List.sizeOf_lt_of_mem hp
    obtain ⟨a, b⟩ := p
    simp only [FlValue.map.sizeOf_spec, Prod.mk.sizeOf_spec] at *
    omega

mutual

/-- Boolean equality on FlValue, element-wise on the nested lists. -/
def beqV : FlValue → FlValue → Bool
  | .null, .null => true
  | .bool a, .bool b => a == b
  | .int a, .int b => a == b
  | .float a, .float b => a == b
  | .string a, .string b => a == b
  | .uint8List a, .uint8List b => a == b
  | .int32List a, .int32List b => a == b
  | .int64List a, .int64List b => a == b
  | .floatList a, .floatList b => a == b
  | .list a, .list b => beqL a b
  | .map a, .map b => beqP a b
  | _, _ => false

/-- Element-wise beqV on lists of values. -/
def beqL : List FlValue → List FlValue → Bool
  | [], [] => true
  | a :: as, b :: bs => beqV a b && beqL as bs
  | _, _ => false

/-- Element-wise beqV on lists of key-value pairs. -/
def beqP : List (FlValue × FlValue) → List (FlValue × FlValue) → Bool
  | [], [] => true
  | (k1, v1) :: as, (k2, v2) :: bs => beqV k1 k2 && beqV v1 v2 && beqP as bs
  | _, _ => false

end

def beqL_iff_of (xs : List FlValue)
    (h : ∀ x ∈ xs, ∀ b, beqV x b = true ↔ x = b) :
    ∀ ys, beqL xs ys = true ↔ xs = ys := by
  induction xs with
  | nil => intro ys; cases ys <;> simp [beqL]
  | cons a as ih =>
    intro ys
    cases ys with
    | nil => simp [beqL]
    | cons b bs =>
      have ha := h a (by simp) b
      have htl := ih (fun x hx => h x (by simp [hx])) bs
      simp [beqL, ha, htl]

def beqP_iff_of (xs : List (FlValue × FlValue))
    (h : ∀ p ∈ xs, (∀ b, beqV p.1 b = true ↔ p.1 = b) ∧ (∀ b, beqV p.2 b = true ↔ p.2 = b)) :
    ∀ ys, beqP xs ys = true ↔ xs = ys := by
  induction xs with
  | nil => intro ys; cases ys <;> simp [beqP]
  | cons a as ih =>
    intro ys
    obtain ⟨k1, v1⟩ := a
    cases ys with
    | nil => simp [beqP]
    | cons b bs =>
      obtain ⟨k2, v2⟩ := b
      have hk := (h (k1, v1) (by simp)).1 k2
      have hv := (h (k1, v1) (by simp)).2 v2
      have htl := ih (fun x hx => h x (by simp [hx])) bs
      simp [beqP, hk, hv, htl, and_assoc]

def beqV_iff : ∀ a b : FlValue, beqV a b = true ↔ a = b := by
  intro a
  induction a using FlValue.recOn2 with
  | hnull => intro b; cases b <;> simp [beqV]
  | hbool x => intro b; cases b <;> simp [beqV]
  | hint x => intro b; cases b <;> simp [beqV]
  | hfloat x => intro b; cases b <;> simp [beqV]
  | hstring x => intro b; cases b <;> simp [beqV]
  | hu8 x => intro b; cases b <;> simp [beqV]
  | hi32 x => intro b; cases b <;> simp [beqV]
  | hi64 x => intro b; cases b <;> simp [beqV]
  | hfl x => intro b; cases b <;> simp [beqV]
  | hlist xs ih =>
    intro b
    cases b <;> simp [beqV]
    exact beqL_iff_of xs ih _
  | hmap ps ih =>
    intro b
    cases b <;> simp [beqV]
    exact beqP_iff_of ps ih _

instance : DecidableEq FlValue := fun a b => decidable_of_iff _ (beqV_iff a b)

/-! ### Character classification and digit conversion (source lines 26-61) -/

/-- Returns true if the given character is JSON whitespace. -/
def is_json_whitespace (c : Nat) : Bool :=
  c = 32 || c = 10 || c = 13 || c = 9

/-- Converts a digit (0-9) to a character. -/
def json_int_to_digit (v : Nat) : Nat := 48 + v

/-- Converts a hexadecimal digit (0-15) to a character, exactly as the
source computes it: below ten a decimal digit character, otherwise
97 + value with no offset of ten subtracted. -/
def json_int_to_xdigit (v : Nat) : Nat := if v < 10 then 48 + v else 97 + v

/-- Converts a character to a decimal digit (0-9), or -1 if not valid. -/
def json_digit_to_int (c : Nat) : Int :=
  if 48 ≤ c ∧ c ≤ 57 then (c : Int) - 48 else -1

/-- Converts a character to a hexadecimal digit (0-15), or -1 if not valid. -/
def json_xdigit_to_int (c : Nat) : Int :=
  if 48 ≤ c ∧ c ≤ 57 then (c : Int) - 48
  else if 97 ≤ c ∧ c ≤ 102 then (c : Int) - 97 + 10
  else if 65 ≤ c ∧ c ≤ 70 then (c : Int) - 65 + 10
  else -1

/-! ### Encoder (source lines 63-257) -/

/-- The first loop of write_int, recursing on explicit fuel so the kernel
can evaluate it: the divisor grows tenfold per step, so the loop runs at
most one step per decimal digit of the value, and the wrapper's fuel
(the value itself) is always enough. -/
def find_divisor_loop : Nat → Nat → Nat → Nat
  | 0, _, d => d
  | fuel + 1, value, d =>
    if 9 < value / d then find_divisor_loop fuel value (d * 10) else d

/-- Smallest power-of-ten divisor leaving at most one leading digit: the
first loop of write_int. -/
def find_divisor (value d : Nat) : Nat := find_divisor_loop value value d

/-- Digit emission loop of write_int, most significant digit first, on
explicit fuel: one digit is written per step and the loop stops once the
divisor reaches one, so the wrapper's fuel (the divisor, a power of ten
at every call the source makes) is always enough. -/
def write_int_digits_loop : Nat → Nat → Nat → List Nat
  | 0, _, _ => []
  | fuel + 1, value, divisor =>
    json_int_to_digit (value / divisor) ::
      (if divisor ≤ 1 then []
       else write_int_digits_loop fuel (value % divisor) (divisor / 10))

/-- Digit emission loop of write_int, most significant digit first. -/
def write_int_digits (value divisor : Nat) : List Nat :=
  write_int_digits_loop divisor value divisor

/-- Writes an integer to the buffer (write_int), with the source's special
case for the minimum 64-bit value whose magnitude cannot be negated. -/
def write_int (value : Int) : List Nat :=
  if value = -(2 ^ 63) then
    [45, 57, 50, 50, 51, 51, 55, 50, 48, 51, 54, 56, 53, 52, 55, 55, 53, 56, 48, 56]
  else
    (if value < 0 then [45] else []) ++
      write_int_digits value.natAbs (find_divisor value.natAbs 1)

/-- Modelled from the spec: g_ascii_dtostr is external glib code absent
from the repository; the spec describes the float writer as emitting the
general (printf %g style) decimal representation of the double with
seventeen significant digits.  The model picks the purely positional
decimal scale; it deliberately has no fall-back to the scientific
notation %g uses when the decimal exponent reaches seventeen or drops
below minus four, so every theorem that reaches this formatter goes
through wf_float, which confines floats to the positional regime where
the general formatting prints exactly this positional numeral. -/
def dec_exp (q : ℚ) : Nat :=
  match (List.range 18).find? (fun k => decide (q.den ∣ 10 ^ k)) with
  | some k => k
  | none => 17

/-- Modelled from the spec: g_ascii_dtostr, the external glib formatter
the float writer calls.  The model renders the exact positional decimal
numeral of the rational at scale dec_exp (a minus sign, the integer
digits, and when the scale is positive a point followed by the
zero-padded fraction digits); values whose denominator does not divide
a power of ten up to 10 ^ 17 are truncated at seventeen fraction
digits.  No exponent form is produced: the model covers only the
positional regime of the general (%g) formatting, which wf_float
enforces for every round-trip theorem (at most seventeen significant
digits and a decimal exponent in the interval from minus four up to but
excluding seventeen); there positional output with trailing zeros
stripped is exactly this numeral. -/
def pad_digits : Nat → Nat → List Nat
  | 0, _ => []
  | k + 1, a => json_int_to_digit (a / 10 ^ k) :: pad_digits k (a % 10 ^ k)

/-- Modelled from the spec: the decimal text for a finite double, see
dec_exp and pad_digits.  The scaled magnitude is the floor of the
absolute value times ten to the scale, computed on the numerator and
denominator directly so the kernel can evaluate it. -/
def g_ascii_dtostr (q : ℚ) : List Nat :=
  let k := dec_exp q
  let a : Nat := q.num.natAbs * 10 ^ k / q.den
  (if q.num < 0 then [45] else []) ++
    write_int_digits (a / 10 ^ k) (find_divisor (a / 10 ^ k) 1) ++
    (if k = 0 then [] else 46 :: pad_digits k (a % 10 ^ k))

/-- Writes a floating point number (write_double): rejects non-finite
values with an invalid-number error, appends a point-zero suffix when
the rendered text has no decimal point. -/
def write_double (x : JFloat) : Except Err (List Nat) :=
  match x with
  | .finite q =>
    let text := g_ascii_dtostr q
    .ok (text ++ (if 46 ∈ text then [] else [46, 48]))
  | _ => .error .invalidNumber

/-- Conversion of a signed char to gunichar as the source's implicit cast
performs it: bytes at least 128 are sign-extended into a 32-bit value. -/
def gunichar_of_char (b : Nat) : Nat :=
  if b < 128 then b else 4294967040 + b

/-- Writes a Unicode escape sequence (write_unicode_escape), extracting
the nibbles of the character at bit offsets 24, 16, 8 and 0, exactly as
the source shifts. -/
def write_unicode_escape (c : Nat) : List Nat :=
  [92, 117,
   json_int_to_xdigit (c / 2 ^ 24 % 16),
   json_int_to_xdigit (c / 2 ^ 16 % 16),
   json_int_to_xdigit (c / 2 ^ 8 % 16),
   json_int_to_xdigit (c % 16)]

/-- The if-chain of the string case of write_value, for one byte.  The
comparison below 0x20 is on a signed char, so bytes at least 128 also
take the escape path. -/
def write_string_char (b : Nat) : List Nat :=
  if b = 34 then [92, 34]
  else if b = 92 then [92, 92]
  else if b = 8 then [92, 98]
  else if b = 12 then [92, 102]
  else if b = 10 then [92, 110]
  else if b = 13 then [92, 114]
  else if b = 9 then [92, 116]
  else if b < 32 ∨ 128 ≤ b then write_unicode_escape (gunichar_of_char b)
  else [b]

/-- Comma-separated rendering of a list of integers: body of the typed
numeric list cases of write_value (a comma before every element but the
first). -/
def write_int_list : List Int → List Nat
  | [] => []
  | x :: xs => write_int x ++ (if xs.isEmpty then [] else 44 :: write_int_list xs)

/-- Comma-separated rendering of a float list via write_double, failing on
the first non-finite element. -/
def write_float_list : List JFloat → Except Err (List Nat)
  | [] => .ok []
  | x :: xs =>
    match write_double x with
    | .error e => .error e
    | .ok a =>
      match write_float_list xs with
      | .error e => .error e
      | .ok b => .ok (a ++ (if xs.isEmpty then [] else 44 :: b))

/-- The signed integers a byte list writes as (each byte widened). -/
def natList (xs : List Nat) : List Int := xs.map (fun (b : Nat) => (b : Int))

mutual

/-- Writes a value to the buffer (write_value).  The nullptr case of the
source coincides with the null value. -/
def write_value : FlValue → Except Err (List Nat)
  | .null => .ok [110, 117, 108, 108]
  | .bool true => .ok [116, 114, 117, 101]
  | .bool false => .ok [102, 97, 108, 115, 101]
  | .int n => .ok (write_int n)
  | .float x => write_double x
  | .string s =>
    .ok (34 :: ((s.takeWhile (fun b => b != 0)).flatMap write_string_char ++ [34]))
  | .uint8List xs => .ok (91 :: (write_int_list (natList xs) ++ [93]))
  | .int32List xs => .ok (91 :: (write_int_list xs ++ [93]))
  | .int64List xs => .ok (91 :: (write_int_list xs ++ [93]))
  | .floatList xs =>
    match write_float_list xs with
    | .error e => .error e
    | .ok body => .ok (91 :: (body ++ [93]))
  | .list xs =>
    match write_list_items xs with
    | .error e => .error e
    | .ok body => .ok (91 :: (body ++ [93]))
  | .map ps =>
    match write_map_items ps with
    | .error e => .error e
    | .ok body => .ok (123 :: (body ++ [125]))

/-- Comma-separated encoding of list children (the FL_VALUE_TYPE_LIST loop
of write_value, a comma before every element but the first). -/
def write_list_items : List FlValue → Except Err (List Nat)
  | [] => .ok []
  | v :: vs =>
    match write_value v with
    | .error e => .error e
    | .ok a =>
      match write_list_items vs with
      | .error e => .error e
      | .ok b => .ok (a ++ (if vs.isEmpty then [] else 44 :: b))

/-- Comma-separated encoding of map entries as key, colon, value (the
FL_VALUE_TYPE_MAP loop of write_value). -/
def write_map_items : List (FlValue × FlValue) → Except Err (List Nat)
  | [] => .ok []
  | (k, v) :: ps =>
    match write_value k with
    | .error e => .error e
    | .ok a =>
      match write_value v with
      | .error e => .error e
      | .ok b =>
        match write_map_items ps with
        | .error e => .error e
        | .ok c => .ok (a ++ 58 :: b ++ (if ps.isEmpty then [] else 44 :: c))

end

/-- Implements FlMessageCodec encode_message: the byte buffer the codec
produces for a value, or the error write_value reports. -/
def encode_message (v : FlValue) : Except Err (List Nat) := write_value v

/-! ### Decoder (source lines 259-701) -/

/-- Returns the current character at the read location, the NUL sentinel
at or past the end (current_char). -/
def current_char (l : List Nat) : Nat := l.headD 0

/-- Move the read pointer past whitespace (read_whitespace). -/
def read_whitespace : List Nat → List Nat
  | [] => []
  | c :: tl => if is_json_whitespace c then read_whitespace tl else c :: tl

/-- Reads an expected word such as true (read_word); any mismatch,
including end of input, is the generic failure. -/
def read_word (l : List Nat) : List Nat → Except Err (List Nat)
  | [] => .ok l
  | w :: ws =>
    if current_char l = w then read_word l.tail ws else .error .failed

/-- Read a comma or report the missing-comma error (read_comma). -/
def read_comma (l : List Nat) : Except Err (List Nat) :=
  if current_char l = 44 then .ok l.tail else .error .missingComma

/-- One hexadecimal digit of a Unicode escape; a non-hex character
(including the end sentinel) is an invalid-unicode-escape error. -/
def read_xdigit (l : List Nat) : Except Err (Nat × List Nat) :=
  if json_xdigit_to_int (current_char l) < 0 then .error .invalidStringUnicodeEscape
  else .ok ((json_xdigit_to_int (current_char l)).toNat, l.tail)

/-- Reads a four-digit Unicode character code (read_json_unichar_code),
accumulating nibbles most significant first. -/
def read_json_unichar_code (l : List Nat) : Except Err (Nat × List Nat) :=
  match read_xdigit l with
  | .error e => .error e
  | .ok (x1, l1) =>
    match read_xdigit l1 with
    | .error e => .error e
    | .ok (x2, l2) =>
      match read_xdigit l2 with
      | .error e => .error e
      | .ok (x3, l3) =>
        match read_xdigit l3 with
        | .error e => .error e
        | .ok (x4, l4) => .ok (((x1 * 16 + x2) * 16 + x3) * 16 + x4, l4)

/-- Reads the escape following a backslash (read_json_string_escape),
returning the character value it denotes. -/
def read_json_string_escape (l : List Nat) : Except Err (Nat × List Nat) :=
  if current_char l = 117 then read_json_unichar_code l.tail
  else if current_char l = 34 then .ok (34, l.tail)
  else if current_char l = 92 then .ok (92, l.tail)
  else if current_char l = 47 then .ok (47, l.tail)
  else if current_char l = 98 then .ok (8, l.tail)
  else if current_char l = 102 then .ok (12, l.tail)
  else if current_char l = 110 then .ok (10, l.tail)
  else if current_char l = 114 then .ok (13, l.tail)
  else if current_char l = 116 then .ok (9, l.tail)
  else .error .invalidStringEscapeSequence

/-- Modelled from glib (external): g_string_append_unichar encodes a code
point as UTF-8; escape codes are at most 0xFFFF so at most three bytes
arise. -/
def g_unichar_to_utf8 (c : Nat) : List Nat :=
  if c < 128 then [c]
  else if c < 2048 then [192 + c / 64, 128 + c % 64]
  else [224 + c / 4096, 128 + c / 64 % 64, 128 + c % 64]

/-- The loop of read_json_string on explicit fuel: every iteration
consumes at least one byte (an escape consumes at least two), so the
wrapper's fuel, one more than the input length, is always enough. -/
def read_json_string_loop : Nat → List Nat → Except Err (List Nat × List Nat)
  | 0, _ => .error .noFuel
  | fuel + 1, l =>
    match l with
    | [] => .error .outOfData
    | c :: tl =>
      if c = 34 then .ok ([], tl)
      else if c = 92 then
        match read_json_string_escape tl with
        | .error e => .error e
        | .ok (wc, rest) =>
          match read_json_string_loop fuel rest with
          | .error e => .error e
          | .ok (s, r2) => .ok (g_unichar_to_utf8 wc ++ s, r2)
      else if c = 0 then .error .outOfData
      else if c < 32 ∨ 128 ≤ c then .error .invalidStringCharacter
      else
        match read_json_string_loop fuel tl with
        | .error e => .error e
        | .ok (s, r2) => .ok (c :: s, r2)

/-- Reads the body of a JSON string after the opening quote
(read_json_string): raw bytes accumulate, escapes append the UTF-8
encoding of the escaped character, the end sentinel is out-of-data, and
a byte that is negative or below 0x20 as a signed char is an
invalid-string-character error. -/
def read_json_string (l : List Nat) : Except Err (List Nat × List Nat) :=
  read_json_string_loop (l.length + 1) l

/-- Truncation of string content at the first NUL byte, which
fl_value_new_string performs when the decoder materializes a string
value from accumulated bytes (a NUL can only arise from a u0000
escape). -/
def trunc_nul (s : List Nat) : List Nat := s.takeWhile (fun b => b != 0)

/-- Reads a run of decimal digits (read_json_digits), accumulating the
value and the divisor in wrapping signed 64-bit arithmetic. -/
def read_json_digits (l : List Nat) (value divisor : Int) : Int × Int × List Nat :=
  match l with
  | [] => (value, divisor, [])
  | c :: tl =>
    if json_digit_to_int c < 0 then (value, divisor, c :: tl)
    else read_json_digits tl (i64 (value * 10 + json_digit_to_int c)) (i64 (divisor * 10))

/-- The double the source computes for a parsed numeric literal:
sign * (value + fraction / divisor) * pow(10, exponent_sign * exponent),
under the model's exact arithmetic with overflow to the infinities, and
written as a single exact integer quotient (divInt) so the kernel can
evaluate it: the power of ten multiplies the numerator when the
exponent is nonnegative and the denominator otherwise.  A zero divisor
(only reachable when the fraction digit run wraps 2 ^ 64 exactly) is
collapsed to nan; the source would divide by zero there. -/
def float_of_parts (sign value fraction divisor es e : Int) : JFloat :=
  if divisor = 0 then .nan
  else
    let E := i64 (es * e)
    if 309 ≤ E then
      let base : ℚ := Rat.divInt (sign * (value * divisor + fraction)) divisor
      if base = 0 then .nan else if 0 < base then .inf else .neginf
    else
      clampD (Rat.divInt (sign * (value * divisor + fraction) * 10 ^ E.toNat)
        (divisor * 10 ^ (-E).toNat))

/-- The integer-part step of read_json_number: a lone leading zero is
consumed as the value zero, otherwise a digit run is accumulated. -/
def read_json_int_part (l0 : List Nat) : Int × List Nat :=
  if current_char l0 = 48 then (0, l0.tail)
  else
    let r := read_json_digits l0 0 1
    (r.1, r.2.2)

/-- The body of read_json_number past the sign handling.  The local
lookahead c2 is not refreshed after the fractional part is read,
exactly as in the source, so the exponent branch only runs when the
character right after the integer part is e or E (and then no fraction
was read). -/
def read_json_number_body (sign : Int) (l0 : List Nat) : Except Err (FlValue × List Nat) :=
  let ip := read_json_int_part l0
  let value := ip.1
  let l2 := ip.2
  let c2 := current_char l2
  if c2 = 46 then
    if json_digit_to_int (current_char l2.tail) < 0 then .error .invalidNumber
    else
      let r := read_json_digits l2.tail 0 1
      .ok (.float (float_of_parts sign value r.1 r.2.1 1 0), r.2.2)
  else if c2 = 69 ∨ c2 = 101 then
    let l3 := l2.tail
    let c3 := current_char l3
    let es : Int := if c3 = 45 then -1 else 1
    let l4 := if c3 = 45 ∨ c3 = 43 then l3.tail else l3
    if json_digit_to_int (current_char l4) < 0 then .error .invalidNumber
    else
      let r := read_json_digits l4 0 1
      .ok (.float (float_of_parts sign value 0 1 es r.1), r.2.2)
  else .ok (.int (i64 (sign * value)), l2)

/-- Reads a JSON number (read_json_number): an optional leading minus
whose missing digit is an invalid-number error, then the body. -/
def read_json_number (l : List Nat) : Except Err (FlValue × List Nat) :=
  if current_char l = 45 then
    if json_digit_to_int (current_char l.tail) < 0 then .error .invalidNumber
    else read_json_number_body (-1) l.tail
  else read_json_number_body 1 l

/-- Modelled from the spec: fl_value_set of the external value-model
library, which the object reader uses to insert each parsed entry; a
duplicate key overwrites the previous value (last write wins) keeping
one entry per key. -/
def fl_value_set (ps : List (FlValue × FlValue)) (k v : FlValue) :
    List (FlValue × FlValue) :=
  if ps.any (fun p => p.1 = k) then
    ps.map (fun p => if p.1 = k then (k, v) else p)
  else ps ++ [(k, v)]

mutual

/-- Reads a value (read_value): skip whitespace, dispatch on the lookahead
character, and skip trailing whitespace after a successful read.  The
fuel argument bounds recursion depth and only decreases entering a
container. -/
def read_value (fuel : Nat) (l : List Nat) : Except Err (FlValue × List Nat) :=
  match fuel with
  | 0 => .error .noFuel
  | fuel + 1 =>
    let l1 := read_whitespace l
    let c := current_char l1
    let res : Except Err (FlValue × List Nat) :=
      if c = 123 then read_json_object fuel l1.tail []
      else if c = 91 then read_json_array fuel l1.tail []
      else if c = 34 then
        match read_json_string l1.tail with
        | .error e => .error e
        | .ok (s, r) => .ok (.string (trunc_nul s), r)
      else if c = 45 ∨ 0 ≤ json_digit_to_int c then read_json_number l1
      else if c = 116 then
        match read_word l1 [116, 114, 117, 101] with
        | .error e => .error e
        | .ok r => .ok (.bool true, r)
      else if c = 102 then
        match read_word l1 [102, 97, 108, 115, 101] with
        | .error e => .error e
        | .ok r => .ok (.bool false, r)
      else if c = 110 then
        match read_word l1 [110, 117, 108, 108] with
        | .error e => .error e
        | .ok r => .ok (.null, r)
      else if c = 0 then .error .outOfData
      else .error .failed
    match res with
    | .error e => .error e
    | .ok (v, l2) => .ok (v, read_whitespace l2)

/-- The loop of read_json_array, entered just past the opening bracket
with the elements accumulated so far. -/
def read_json_array (fuel : Nat) (l : List Nat) (acc : List FlValue) :
    Except Err (FlValue × List Nat) :=
  match fuel with
  | 0 => .error .noFuel
  | fuel + 1 =>
    let l1 := read_whitespace l
    let c := current_char l1
    if c = 0 then .error .outOfData
    else if c = 93 then .ok (.list acc, l1.tail)
    else
      let step : Except Err (List Nat) :=
        if acc.isEmpty then .ok l1
        else
          match read_comma l1 with
          | .error e => .error e
          | .ok r => .ok (read_whitespace r)
      match step with
      | .error e => .error e
      | .ok l2 =>
        match read_value fuel l2 with
        | .error e => .error e
        | .ok (child, l3) => read_json_array fuel l3 (acc ++ [child])

/-- The loop of read_json_object, entered just past the opening brace with
the entries accumulated so far. -/
def read_json_object (fuel : Nat) (l : List Nat) (acc : List (FlValue × FlValue)) :
    Except Err (FlValue × List Nat) :=
  match fuel with
  | 0 => .error .noFuel
  | fuel + 1 =>
    let l1 := read_whitespace l
    let c := current_char l1
    if c = 0 then .error .outOfData
    else if c = 125 then .ok (.map acc, l1.tail)
    else
      let step : Except Err (List Nat) :=
        if acc.isEmpty then .ok l1
        else
          match read_comma l1 with
          | .error e => .error e
          | .ok r => .ok (read_whitespace r)
      match step with
      | .error e => .error e
      | .ok l2 =>
        if current_char l2 ≠ 34 then .error .invalidObjectKeyType
        else
          match read_json_string l2.tail with
          | .error e => .error e
          | .ok (ks, l3) =>
            let l4 := read_whitespace l3
            if current_char l4 ≠ 58 then .error .failed
            else
              match read_value fuel l4.tail with
              | .error e => .error e
              | .ok (v, l5) =>
                read_json_object fuel l5 (fl_value_set acc (.string (trunc_nul ks)) v)

end

/-- Implements FlMessageCodec decode_message: read one value, then require
the whole input consumed, reporting the exact count of unused bytes
otherwise.  The fuel is ample for any input of this length. -/
def decode_message (l : List Nat) : Except Err FlValue :=
  match read_value (2 * l.length + 2) l with
  | .error e => .error e
  | .ok (v, rest) =>
    if rest = [] then .ok v else .error (.additionalData rest.length)

/-! ### Specification-side definitions -/

mutual

/-- Whether a value contains a non-finite float: a Float payload or a
float-list element that is nan or an infinity, anywhere in the tree. -/
def has_non_finite : FlValue → Bool
  | .float x => !x.isfinite
  | .floatList xs => xs.any (fun x => !x.isfinite)
  | .list xs => has_non_finite_list xs
  | .map ps => has_non_finite_pairs ps
  | _ => false

/-- has_non_finite over the children of a heterogeneous list. -/
def has_non_finite_list : List FlValue → Bool
  | [] => false
  | v :: vs => has_non_finite v || has_non_finite_list vs

/-- has_non_finite over the entries of a map. -/
def has_non_finite_pairs : List (FlValue × FlValue) → Bool
  | [] => false
  | (k, v) :: ps => has_non_finite k || has_non_finite v || has_non_finite_pairs ps

end

/-- Exact integer value of a run of decimal digit bytes, most significant
first, with no 64-bit wrapping: the mathematical reading of a literal. -/
def digitsVal (ds : List Nat) : Int :=
  ds.foldl (fun (a : Int) (c : Nat) => a * 10 + ((c : Int) - 48)) 0

/-- Whether a byte is a decimal digit character. -/
def is_digit_byte (c : Nat) : Bool := 48 ≤ c && c ≤ 57

/-- Whether a codec result is a success. -/
def is_ok {ε α : Type} : Except ε α → Bool
  | .ok _ => true
  | .error _ => false

/-- Syntax of one numeric literal: optional minus, integer-part digits,
optional fraction digits, optional exponent (marker byte e or E, an
optional sign where some true is minus and some false is plus, and the
exponent digits). -/
structure NumTok where
  neg : Bool
  ip : List Nat
  frac : Option (List Nat)
  exp : Option (Nat × Option Bool × List Nat)

/-- The bytes of the optional fractional part of a literal. -/
def render_frac : Option (List Nat) → List Nat
  | none => []
  | some fs => 46 :: fs

/-- The bytes of the optional exponent sign of a literal. -/
def render_esign : Option Bool → List Nat
  | none => []
  | some true => [45]
  | some false => [43]

/-- The bytes of the optional exponent part of a literal. -/
def render_exp : Option (Nat × Option Bool × List Nat) → List Nat
  | none => []
  | some (m, sg, es) => m :: (render_esign sg ++ es)

/-- The byte string of a numeric literal. -/
def render_num (t : NumTok) : List Nat :=
  (if t.neg then [45] else []) ++ t.ip ++ render_frac t.frac ++ render_exp t.exp

/-- Well-formedness of a numeric literal as the number reader accepts it:
nonempty all-digit runs, an integer part that is a lone zero whenever it
starts with zero (the reader consumes a single leading zero), a marker
byte that is e or E, and, because the reader's stale lookahead skips the
exponent branch after a fraction, not both a fraction and an exponent. -/
def wf_num (t : NumTok) : Prop :=
  t.ip ≠ [] ∧ (∀ c ∈ t.ip, is_digit_byte c = true) ∧
    (t.ip.headD 0 = 48 → t.ip = [48]) ∧
    (∀ fs, t.frac = some fs → fs ≠ [] ∧ ∀ c ∈ fs, is_digit_byte c = true) ∧
    (∀ m sg es, t.exp = some (m, sg, es) →
      (m = 69 ∨ m = 101) ∧ es ≠ [] ∧ ∀ c ∈ es, is_digit_byte c = true) ∧
    ¬(t.frac.isSome ∧ t.exp.isSome)

/-- The value the number-reader body produces for a literal with the
given sign: the integer variant under 64-bit wrapping when neither
fraction nor exponent is present, otherwise the float variant computed
by float_of_parts from the wrapped integer parts. -/
def eval_num_body (sign : Int) (ip : List Nat) (frac : Option (List Nat))
    (exp : Option (Nat × Option Bool × List Nat)) : FlValue :=
  let value : Int := i64 (digitsVal ip)
  match frac with
  | some fs =>
    .float (float_of_parts sign value (i64 (digitsVal fs)) (i64 (10 ^ fs.length)) 1 0)
  | none =>
    match exp with
    | some (_, sg, eds) =>
      .float (float_of_parts sign value 0 1 (if sg = some true then -1 else 1)
        (i64 (digitsVal eds)))
    | none => .int (i64 (sign * digitsVal ip))

/-- The value the number reader produces for a literal. -/
def eval_num (t : NumTok) : FlValue :=
  eval_num_body (if t.neg then -1 else 1) t.ip t.frac t.exp

/-- A byte that cannot extend a numeric literal: no digit, no decimal
point, no exponent marker.  The end sentinel and every structural byte
(comma, brackets, colon, whitespace) qualify. -/
def num_boundary (c : Nat) : Prop :=
  is_digit_byte c = false ∧ c ≠ 46 ∧ c ≠ 69 ∧ c ≠ 101

/-- A string-content byte the reader passes through unchanged and the
writer emits without an escape: printable ASCII except the quote and the
backslash. -/
def plain_str_byte (b : Nat) : Bool :=
  decide (32 ≤ b) && decide (b ≤ 127) && decide (b ≠ 34) && decide (b ≠ 92)

/-- Boolean form of wf_num, for computation. -/
def wf_num_b (t : NumTok) : Bool :=
  (!t.ip.isEmpty) && t.ip.all is_digit_byte &&
    (decide (t.ip.headD 0 ≠ 48) || decide (t.ip = [48])) &&
    (match t.frac with
     | none => true
     | some fs => (!fs.isEmpty) && fs.all is_digit_byte) &&
    (match t.exp with
     | none => true
     | some (m, _, es) =>
       (decide (m = 69) || decide (m = 101)) && (!es.isEmpty) && es.all is_digit_byte) &&
    !(t.frac.isSome && t.exp.isSome)

/-- Acceptance of one hexadecimal digit byte, exactly as read_xdigit
checks it. -/
def is_xdigit_byte (c : Nat) : Bool := decide (0 ≤ json_xdigit_to_int c)

/-- The value of a hexadecimal digit byte, as read_xdigit returns it. -/
def xdval (c : Nat) : Nat := (json_xdigit_to_int c).toNat

/-- The escape letters read_json_string_escape resolves without a
Unicode code (the letter u is deliberately absent). -/
def is_simple_esc (e : Nat) : Bool :=
  decide (e = 34) || decide (e = 92) || decide (e = 47) || decide (e = 98) ||
    decide (e = 102) || decide (e = 110) || decide (e = 114) || decide (e = 116)

/-- The character a simple escape letter denotes, as
read_json_string_escape resolves it. -/
def esc_char_val (e : Nat) : Nat :=
  if e = 34 then 34
  else if e = 92 then 92
  else if e = 47 then 47
  else if e = 98 then 8
  else if e = 102 then 12
  else if e = 110 then 10
  else if e = 114 then 13
  else 9

/-- One item of JSON string content: a raw byte, a backslash escape with
its letter, or a Unicode escape with its four hexadecimal digit bytes.
Every string body the reader accepts is a unique sequence of these. -/
inductive SChar where
  | raw (c : Nat)
  | esc (e : Nat)
  | uesc (a b c d : Nat)
deriving Repr

/-- The bytes of one string content item as they stand in the input. -/
def renderSChar : SChar → List Nat
  | .raw c => [c]
  | .esc e => [92, e]
  | .uesc a b c d => [92, 117, a, b, c, d]

/-- The bytes of a string content. -/
def renderS (s : List SChar) : List Nat := s.flatMap renderSChar

/-- Acceptance of one string content item by the reader: a raw byte is
printable ASCII other than the quote and the backslash, an escape letter
is one of the eight, a Unicode escape has four hexadecimal digits. -/
def wfSChar : SChar → Bool
  | .raw c => decide (32 ≤ c) && decide (c < 128) && decide (c ≠ 34) && decide (c ≠ 92)
  | .esc e => is_simple_esc e
  | .uesc a b c d =>
    is_xdigit_byte a && is_xdigit_byte b && is_xdigit_byte c && is_xdigit_byte d

/-- The bytes the reader appends for one string content item (escapes go
through the UTF-8 encoder, as the source's g_string_append_unichar). -/
def evalSChar : SChar → List Nat
  | .raw c => [c]
  | .esc e => g_unichar_to_utf8 (esc_char_val e)
  | .uesc a b c d =>
    g_unichar_to_utf8 (((xdval a * 16 + xdval b) * 16 + xdval c) * 16 + xdval d)

/-- The bytes the reader accumulates for a string content. -/
def evalS (s : List SChar) : List Nat := s.flatMap evalSChar

/-- The bytes whose write_string_char encoding the reader decodes back to
the byte itself: the five control characters with simple escapes, and
printable ASCII (other control bytes and bytes past 0x7f take the broken
Unicode escape path of write_unicode_escape, and NUL is truncated by the
writer first). -/
def good_str_byte (b : Nat) : Bool :=
  decide (b = 8) || decide (b = 9) || decide (b = 10) || decide (b = 12) ||
    decide (b = 13) || (decide (32 ≤ b) && decide (b < 128))

/-- The string content item write_string_char emits for one good byte. -/
def escC (b : Nat) : SChar :=
  if b = 34 then .esc 34
  else if b = 92 then .esc 92
  else if b = 8 then .esc 98
  else if b = 12 then .esc 102
  else if b = 10 then .esc 110
  else if b = 13 then .esc 114
  else if b = 9 then .esc 116
  else .raw b

/-- The string content write_value emits for a good byte string. -/
def escS (s : List Nat) : List SChar := s.map escC

mutual

/-- A JSON document decorated with explicit whitespace slots: every place
the reader skips whitespace between tokens carries the byte run standing
there.  Array items carry whitespace before and after the element;
object entries carry it around the key, before the colon, and around the
value; each container carries the run before its closing bracket. -/
inductive JDoc where
  | jnull
  | jbool (b : Bool)
  | jnum (t : NumTok)
  | jstr (s : List SChar)
  | jarr (items : JItems) (wsE : List Nat)
  | jobj (entries : JEntries) (wsE : List Nat)

/-- The items of a decorated array: leading whitespace, the element, and
trailing whitespace before the comma or the closing bracket. -/
inductive JItems where
  | inil
  | icons (pre : List Nat) (d : JDoc) (post : List Nat) (rest : JItems)

/-- The entries of a decorated object: whitespace before the quoted key,
the key content, whitespace before the colon, then the value with its
surrounding whitespace. -/
inductive JEntries where
  | enil
  | econs (kpre : List Nat) (k : List SChar) (kpost : List Nat)
      (vpre : List Nat) (d : JDoc) (vpost : List Nat) (rest : JEntries)

end

mutual

/-- The byte string of a decorated document. -/
def renderDoc : JDoc → List Nat
  | .jnull => [110, 117, 108, 108]
  | .jbool true => [116, 114, 117, 101]
  | .jbool false => [102, 97, 108, 115, 101]
  | .jnum t => render_num t
  | .jstr s => 34 :: (renderS s ++ [34])
  | .jarr .inil wsE => 91 :: (wsE ++ [93])
  | .jarr (.icons pre d post rest) wsE =>
    91 :: (pre ++ renderDoc d ++ post ++ renderTail rest ++ wsE ++ [93])
  | .jobj .enil wsE => 123 :: (wsE ++ [125])
  | .jobj (.econs kpre k kpost vpre d vpost rest) wsE =>
    123 :: (kpre ++ 34 :: (renderS k ++ 34 :: (kpost ++ 58 ::
      (vpre ++ renderDoc d ++ vpost ++ renderETail rest ++ wsE ++ [125]))))

/-- The byte string of the items past the first, each behind its comma. -/
def renderTail : JItems → List Nat
  | .inil => []
  | .icons pre d post rest => 44 :: (pre ++ renderDoc d ++ post ++ renderTail rest)

/-- The byte string of the entries past the first, each behind its comma. -/
def renderETail : JEntries → List Nat
  | .enil => []
  | .econs kpre k kpost vpre d vpost rest =>
    44 :: (kpre ++ 34 :: (renderS k ++ 34 :: (kpost ++ 58 ::
      (vpre ++ renderDoc d ++ vpost ++ renderETail rest))))

end

mutual

/-- The value the reader produces for a decorated document. -/
def evalDoc : JDoc → FlValue
  | .jnull => .null
  | .jbool b => .bool b
  | .jnum t => eval_num t
  | .jstr s => .string (trunc_nul (evalS s))
  | .jarr items _ => .list (evalItems items)
  | .jobj entries _ => .map (evalEntries [] entries)

/-- The values of the items of a decorated array, in order. -/
def evalItems : JItems → List FlValue
  | .inil => []
  | .icons _ d _ rest => evalDoc d :: evalItems rest

/-- The map entries the object loop accumulates with fl_value_set. -/
def evalEntries (acc : List (FlValue × FlValue)) : JEntries → List (FlValue × FlValue)
  | .enil => acc
  | .econs _ k _ _ d _ rest =>
    evalEntries (fl_value_set acc (.string (trunc_nul (evalS k))) (evalDoc d)) rest

end

mutual

/-- The token skeleton of a decorated document: every whitespace slot
emptied, everything else kept. -/
def stripD : JDoc → JDoc
  | .jnull => .jnull
  | .jbool b => .jbool b
  | .jnum t => .jnum t
  | .jstr s => .jstr s
  | .jarr items _ => .jarr (stripI items) []
  | .jobj entries _ => .jobj (stripE entries) []

/-- The token skeleton of array items. -/
def stripI : JItems → JItems
  | .inil => .inil
  | .icons _ d _ rest => .icons [] (stripD d) [] (stripI rest)

/-- The token skeleton of object entries. -/
def stripE : JEntries → JEntries
  | .enil => .enil
  | .econs _ k _ _ d _ rest => .econs [] k [] [] (stripD d) [] (stripE rest)

end

mutual

/-- Well-formedness of a decorated document: whitespace slots hold only
the four whitespace bytes, numeric tokens are well formed, string and
key content is plain. -/
def WfD : JDoc → Bool
  | .jnull => true
  | .jbool _ => true
  | .jnum t => wf_num_b t
  | .jstr s => s.all wfSChar
  | .jarr items wsE => WfI items && wsE.all is_json_whitespace
  | .jobj entries wsE => WfE entries && wsE.all is_json_whitespace

/-- Well-formedness of array items. -/
def WfI : JItems → Bool
  | .inil => true
  | .icons pre d post rest =>
    pre.all is_json_whitespace && WfD d && post.all is_json_whitespace && WfI rest

/-- Well-formedness of object entries. -/
def WfE : JEntries → Bool
  | .enil => true
  | .econs kpre k kpost vpre d vpost rest =>
    kpre.all is_json_whitespace && k.all wfSChar &&
      kpost.all is_json_whitespace && vpre.all is_json_whitespace &&
      WfD d && vpost.all is_json_whitespace && WfE rest

end

mutual

/-- Fuel bound for reading a decorated document: one unit per value plus
one per container step. -/
def sizeD : JDoc → Nat
  | .jnull => 1
  | .jbool _ => 1
  | .jnum _ => 1
  | .jstr _ => 1
  | .jarr items _ => 1 + sizeI items
  | .jobj entries _ => 1 + sizeE entries

/-- Fuel bound for the array loop over the given items. -/
def sizeI : JItems → Nat
  | .inil => 1
  | .icons _ d _ rest => 1 + sizeD d + sizeI rest

/-- Fuel bound for the object loop over the given entries. -/
def sizeE : JEntries → Nat
  | .enil => 1
  | .econs _ _ _ _ d _ rest => 1 + sizeD d + sizeE rest

end


/-- The numeric token write_int renders for an integer: the source's
special-cased most negative value, otherwise an optional minus and the
digits of the magnitude. -/
def intTok (i : Int) : NumTok :=
  if i = -(2 ^ 63) then
    ⟨true, [57, 50, 50, 51, 51, 55, 50, 48, 51, 54, 56, 53, 52, 55, 55, 53, 56, 48, 56],
      none, none⟩
  else
    ⟨decide (i < 0), write_int_digits i.natAbs (find_divisor i.natAbs 1), none, none⟩

/-- The numeric token write_double renders for a finite value: the
g_ascii_dtostr text, with the point-zero suffix the writer appends when
the scale is zero. -/
def floatTok (q : ℚ) : NumTok :=
  ⟨decide (q.num < 0),
    write_int_digits (q.num.natAbs * 10 ^ dec_exp q / q.den / 10 ^ dec_exp q)
      (find_divisor (q.num.natAbs * 10 ^ dec_exp q / q.den / 10 ^ dec_exp q) 1),
    some (if dec_exp q = 0 then [48]
      else pad_digits (dec_exp q) (q.num.natAbs * 10 ^ dec_exp q / q.den % 10 ^ dec_exp q)),
    none⟩

/-- Finiteness and range check of a float for the round trip: the
denominator divides a power of ten within the writer's scale, the
magnitude stays within the wrap-free integer range, and the value lies
in the regime where the general floating-point formatting the spec
prescribes stays positional: at most seventeen significant digits (the
scaled magnitude below ten to the seventeenth) and a decimal exponent of
at least minus four (the scaled magnitude at least the scale divided by
ten thousand); outside that regime the real formatter switches to the
scientific notation this model does not produce. -/
def wf_float : JFloat → Bool
  | .finite q =>
    decide (q.den ∣ 10 ^ 17) && decide (q.num.natAbs < 2 ^ 63) &&
      (decide (q.num = 0) ||
        (decide (q.num.natAbs * 10 ^ dec_exp q / q.den < 10 ^ 17) &&
          decide (10 ^ dec_exp q ≤ q.num.natAbs * 10 ^ dec_exp q / q.den * 10 ^ 4)))
  | _ => false

/-- The document a finite float encodes to (a non-finite one never
renders; the writer rejects it first). -/
def docOfFloat : JFloat → JDoc
  | .finite q => .jnum (floatTok q)
  | _ => .jnull

/-- The decorated document a typed integer list encodes to. -/
def docOfIntList : List Int → JItems
  | [] => .inil
  | x :: xs => .icons [] (.jnum (intTok x)) [] (docOfIntList xs)

/-- The decorated document a float list encodes to. -/
def docOfFloatList : List JFloat → JItems
  | [] => .inil
  | x :: xs => .icons [] (docOfFloat x) [] (docOfFloatList xs)

mutual

/-- The decorated document (with empty whitespace slots) whose rendering
is exactly the writer's output for a well-formed value. -/
def docOf : FlValue → JDoc
  | .null => .jnull
  | .bool b => .jbool b
  | .int n => .jnum (intTok n)
  | .float x => docOfFloat x
  | .string s => .jstr (escS s)
  | .uint8List xs => .jarr (docOfIntList (natList xs)) []
  | .int32List xs => .jarr (docOfIntList xs) []
  | .int64List xs => .jarr (docOfIntList xs) []
  | .floatList xs => .jarr (docOfFloatList xs) []
  | .list xs => .jarr (docOfList xs) []
  | .map ps => .jobj (docOfMap ps) []

/-- Array items of the children of a heterogeneous list. -/
def docOfList : List FlValue → JItems
  | [] => .inil
  | v :: vs => .icons [] (docOf v) [] (docOfList vs)

/-- Object entries of the entries of a map (keys are strings under the
round-trip well-formedness). -/
def docOfMap : List (FlValue × FlValue) → JEntries
  | [] => .enil
  | (.string s, v) :: ps => .econs [] (escS s) [] [] (docOf v) [] (docOfMap ps)
  | (_, v) :: ps => .econs [] [] [] [] (docOf v) [] (docOfMap ps)

end

mutual

/-- Round-trip well-formedness of a value: integers within the signed
64-bit range, floats the modelled formatter prints exactly in positional
form, strings of bytes whose escape round trip is intact, typed list
elements within their type's range, and maps keyed by distinct such
strings. -/
def wfV : FlValue → Bool
  | .null => true
  | .bool _ => true
  | .int n => decide (-(2 ^ 63) ≤ n) && decide (n < 2 ^ 63)
  | .float x => wf_float x
  | .string s => s.all good_str_byte
  | .uint8List xs => xs.all fun b => decide (b < 256)
  | .int32List xs => xs.all fun x => decide (-(2 ^ 31) ≤ x) && decide (x < 2 ^ 31)
  | .int64List xs => xs.all fun x => decide (-(2 ^ 63) ≤ x) && decide (x < 2 ^ 63)
  | .floatList xs => xs.all wf_float
  | .list xs => wfL xs
  | .map ps => wfP ps && decide ((ps.map fun p => p.1).Nodup)

/-- Round-trip well-formedness of list children. -/
def wfL : List FlValue → Bool
  | [] => true
  | v :: vs => wfV v && wfL vs

/-- Round-trip well-formedness of map entries: plain string keys and
well-formed values. -/
def wfP : List (FlValue × FlValue) → Bool
  | [] => true
  | (.string s, v) :: ps => s.all good_str_byte && wfV v && wfP ps
  | (_, _) :: _ => false

end

mutual

/-- The value decode returns for an encoded well-formed value: identical
except that every typed numeric list comes back as a heterogeneous list
of its elements. -/
def coerce : FlValue → FlValue
  | .null => .null
  | .bool b => .bool b
  | .int n => .int n
  | .float x => .float x
  | .string s => .string s
  | .uint8List xs => .list ((natList xs).map fun x => .int x)
  | .int32List xs => .list (xs.map fun x => .int x)
  | .int64List xs => .list (xs.map fun x => .int x)
  | .floatList xs => .list (xs.map fun x => .float x)
  | .list xs => .list (coerceL xs)
  | .map ps => .map (coerceP ps)

/-- coerce on list children. -/
def coerceL : List FlValue → List FlValue
  | [] => []
  | v :: vs => coerce v :: coerceL vs

/-- coerce on map entries (keys are strings and stay put). -/
def coerceP : List (FlValue × FlValue) → List (FlValue × FlValue)
  | [] => []
  | (k, v) :: ps => (k, coerce v) :: coerceP ps

end

end FlJson

namespace FlJson

/-! ### Theorems -/

/-- C2 (code bug): on the control byte 0x1F the encoder does not emit the
four-lowercase-hex-digit escape of the byte value (which would be the
bytes of backslash-u001f); it emits backslash-u000p, because
write_unicode_escape extracts the nibbles at bit offsets 24, 16, 8 and 0
(dropping the 0x10 nibble) and json_int_to_xdigit maps the nibble 15 to
the letter p (112) instead of f.  Likewise byte 0x0B becomes
backslash-u000l (108), which is not a hexadecimal digit at all. -/
theorem c2_unicode_escape_bug :
    encode_message (.string [31]) = .ok [34, 92, 117, 48, 48, 48, 112, 34] ∧
    encode_message (.string [11]) = .ok [34, 92, 117, 48, 48, 48, 108, 34] ∧
    encode_message (.string [31]) ≠ .ok [34, 92, 117, 48, 48, 49, 102, 34] := by
  refine ⟨by decide, by decide, by decide⟩

/-- C3 (code bug): the input 1.5e3 does not decode to the float 1500; the
number reader leaves the exponent unconsumed because its lookahead
variable still holds the decimal point after the fraction is read, so
top-level decoding fails with an additional-data error counting the two
bytes e3.  This contradicts the reader's own documentation example
3.16765e5, which has both a fraction and an exponent. -/
theorem c3_fraction_exponent_bug :
    decode_message [49, 46, 53, 101, 51] = .error (.additionalData 2) := by
  decide

/-- C5: whenever one value parses successfully but unconsumed bytes remain
past it, decoding fails with an additional-data error reporting the
exact count of leftover bytes. -/
theorem c5_additional_data (l : List Nat) (v : FlValue) (rest : List Nat)
    (h : read_value (2 * l.length + 2) l = .ok (v, rest)) (hne : rest ≠ []) :
    decode_message l = .error (.additionalData rest.length) := by
  unfold decode_message
  rw [h]
  simp [hne]

/-- C5 witness: decoding 01 parses the single 0 and fails with an
additional-data error for the one leftover byte; decoding 00 likewise. -/
theorem c5_witness :
    decode_message [48, 49] = .error (.additionalData 1) ∧
    decode_message [48, 48] = .error (.additionalData 1) :=
  ⟨c5_additional_data [48, 49] (.int 0) [49] (by decide) (by decide),
   c5_additional_data [48, 48] (.int 0) [48] (by decide) (by decide)⟩

/-- A non-finite float makes write_double fail with the invalid-number
error; a finite one succeeds. -/
theorem write_double_nf (x : JFloat) :
    ((!x.isfinite) = true → write_double x = .error .invalidNumber) ∧
    ((!x.isfinite) = false → is_ok (write_double x) = true) := by
  cases x <;> simp [JFloat.isfinite, write_double, is_ok]

/-- write_float_list fails with the invalid-number error exactly when some
element is non-finite. -/
theorem write_float_list_nf (xs : List JFloat) :
    ((xs.any fun x => !x.isfinite) = true → write_float_list xs = .error .invalidNumber) ∧
    ((xs.any fun x => !x.isfinite) = false → is_ok (write_float_list xs) = true) := by
  induction xs with
  | nil => simp [write_float_list, is_ok]
  | cons x xs ih =>
    rw [write_float_list]
    rcases hx : write_double x with e | a
    · have hxf : (!x.isfinite) = true := by
        by_contra hc
        have := (write_double_nf x).2 (by simpa using hc)
        rw [hx] at this
        simp [is_ok] at this
      have he := (write_double_nf x).1 hxf
      rw [hx] at he
      simp only [Except.error.injEq] at he
      subst he
      simp [hxf, is_ok]
    · have hxf : (!x.isfinite) = false := by
        by_contra hc
        have := (write_double_nf x).1 (by simpa using hc)
        rw [hx] at this
        simp at this
      rcases hxs : write_float_list xs with e | b
      · have hany : (xs.any fun x => !x.isfinite) = true := by
          by_contra hc
          have := ih.2 (by simpa using hc)
          rw [hxs] at this
          simp [is_ok] at this
        have := ih.1 hany
        rw [hxs] at this
        simp only [Except.error.injEq] at this
        subst this
        simp [hxf, hany, is_ok]
      · have hany : (xs.any fun x => !x.isfinite) = false := by
          by_contra hc
          have := ih.1 (by simpa using hc)
          rw [hxs] at this
          simp at this
        simp [hxf, hany, is_ok]

/-- write_list_items fails with the invalid-number error exactly when some
child does, given the per-child facts. -/
theorem write_list_items_nf (xs : List FlValue)
    (hm : ∀ x ∈ xs,
      (has_non_finite x = true → write_value x = .error .invalidNumber) ∧
      (has_non_finite x = false → is_ok (write_value x) = true)) :
    (has_non_finite_list xs = true → write_list_items xs = .error .invalidNumber) ∧
    (has_non_finite_list xs = false → is_ok (write_list_items xs) = true) := by
  induction xs with
  | nil => simp [write_list_items, has_non_finite_list, is_ok]
  | cons x xs ih =>
    have hx := hm x (by simp)
    have ihtl := ih (fun a ha => hm a (by simp [ha]))
    rw [write_list_items, has_non_finite_list]
    rcases hvx : write_value x with e | a
    · have hxf : has_non_finite x = true := by
        by_contra hc
        have := hx.2 (by simpa using hc)
        rw [hvx] at this
        simp [is_ok] at this
      have he := hx.1 hxf
      rw [hvx] at he
      simp only [Except.error.injEq] at he
      subst he
      simp [hxf, is_ok]
    · have hxf : has_non_finite x = false := by
        by_contra hc
        have := hx.1 (by simpa using hc)
        rw [hvx] at this
        simp at this
      rcases hxs : write_list_items xs with e | b
      · have hany : has_non_finite_list xs = true := by
          by_contra hc
          have := ihtl.2 (by simpa using hc)
          rw [hxs] at this
          simp [is_ok] at this
        have := ihtl.1 hany
        rw [hxs] at this
        simp only [Except.error.injEq] at this
        subst this
        simp [hxf, hany, is_ok]
      · have hany : has_non_finite_list xs = false := by
          by_contra hc
          have := ihtl.1 (by simpa using hc)
          rw [hxs] at this
          simp at this
        simp [hxf, hany, is_ok]

/-- write_map_items fails with the invalid-number error exactly when some
key or value does, given the per-entry facts. -/
theorem write_map_items_nf (ps : List (FlValue × FlValue))
    (hm : ∀ p ∈ ps,
      ((has_non_finite p.1 = true → write_value p.1 = .error .invalidNumber) ∧
       (has_non_finite p.1 = false → is_ok (write_value p.1) = true)) ∧
      ((has_non_finite p.2 = true → write_value p.2 = .error .invalidNumber) ∧
       (has_non_finite p.2 = false → is_ok (write_value p.2) = true))) :
    (has_non_finite_pairs ps = true → write_map_items ps = .error .invalidNumber) ∧
    (has_non_finite_pairs ps = false → is_ok (write_map_items ps) = true) := by
  induction ps with
  | nil => simp [write_map_items, has_non_finite_pairs, is_ok]
  | cons p ps ih =>
    obtain ⟨k, v⟩ := p
    have hk := (hm (k, v) (by simp)).1
    have hv := (hm (k, v) (by simp)).2
    have ihtl := ih (fun a ha => hm a (by simp [ha]))
    rw [write_map_items, has_non_finite_pairs]
    rcases hvk : write_value k with e | a
    · have hkf : has_non_finite k = true := by
        by_contra hc
        have := hk.2 (by simpa using hc)
        rw [hvk] at this
        simp [is_ok] at this
      have he := hk.1 hkf
      rw [hvk] at he
      simp only [Except.error.injEq] at he
      subst he
      simp [hkf, is_ok]
    · have hkf : has_non_finite k = false := by
        by_contra hc
        have := hk.1 (by simpa using hc)
        rw [hvk] at this
        simp at this
      rcases hvv : write_value v with e | b
      · have hvf : has_non_finite v = true := by
          by_contra hc
          have := hv.2 (by simpa using hc)
          rw [hvv] at this
          simp [is_ok] at this
        have he := hv.1 hvf
        rw [hvv] at he
        simp only [Except.error.injEq] at he
        subst he
        simp [hkf, hvf, is_ok]
      · have hvf : has_non_finite v = false := by
          by_contra hc
          have := hv.1 (by simpa using hc)
          rw [hvv] at this
          simp at this
        rcases hps : write_map_items ps with e | c
        · have hany : has_non_finite_pairs ps = true := by
            by_contra hc
            have := ihtl.2 (by simpa using hc)
            rw [hps] at this
            simp [is_ok] at this
          have := ihtl.1 hany
          rw [hps] at this
          simp only [Except.error.injEq] at this
          subst this
          simp [hkf, hvf, hany, is_ok]
        · have hany : has_non_finite_pairs ps = false := by
            by_contra hc
            have := ihtl.1 (by simpa using hc)
            rw [hps] at this
            simp at this
          simp [hkf, hvf, hany, is_ok]

/-- C4: encoding fails exactly on values containing a non-finite float (a
Float payload or a float-list element that is nan or an infinity), and
the failure is the invalid-number error; every value with only finite
floats encodes successfully. -/
theorem c4_encode_error_iff_non_finite (v : FlValue) :
    (has_non_finite v = true → encode_message v = .error .invalidNumber) ∧
    (has_non_finite v = false → is_ok (encode_message v) = true) := by
  induction v using FlValue.recOn2 with
  | hnull => simp [encode_message, write_value, has_non_finite, is_ok]
  | hbool b => cases b <;> simp [encode_message, write_value, has_non_finite, is_ok]
  | hint n => simp [encode_message, write_value, has_non_finite, is_ok]
  | hfloat x =>
    simpa [encode_message, write_value, has_non_finite] using write_double_nf x
  | hstring s => simp [encode_message, write_value, has_non_finite, is_ok]
  | hu8 xs => simp [encode_message, write_value, has_non_finite, is_ok]
  | hi32 xs => simp [encode_message, write_value, has_non_finite, is_ok]
  | hi64 xs => simp [encode_message, write_value, has_non_finite, is_ok]
  | hfl xs =>
    have := write_float_list_nf xs
    constructor
    · intro h
      rw [has_non_finite] at h
      simp only [encode_message, write_value]
      rw [this.1 h]
    · intro h
      rw [has_non_finite] at h
      have h2 := this.2 h
      rcases hb : write_float_list xs with e | b
      · rw [hb] at h2
        simp [is_ok] at h2
      · simp only [encode_message, write_value]
        rw [hb]
        simp [is_ok]
  | hlist xs ih =>
    have := write_list_items_nf xs ih
    constructor
    · intro h
      rw [has_non_finite] at h
      simp only [encode_message, write_value]
      rw [this.1 h]
    · intro h
      rw [has_non_finite] at h
      have h2 := this.2 h
      rcases hb : write_list_items xs with e | b
      · rw [hb] at h2
        simp [is_ok] at h2
      · simp only [encode_message, write_value]
        rw [hb]
        simp [is_ok]
  | hmap ps ih =>
    have := write_map_items_nf ps ih
    constructor
    · intro h
      rw [has_non_finite] at h
      simp only [encode_message, write_value]
      rw [this.1 h]
    · intro h
      rw [has_non_finite] at h
      have h2 := this.2 h
      rcases hb : write_map_items ps with e | b
      · rw [hb] at h2
        simp [is_ok] at h2
      · simp only [encode_message, write_value]
        rw [hb]
        simp [is_ok]

/-- C4 witness: encoding the bare nan float fails with the invalid-number
error, encoding a list holding an infinite float-list element fails the
same way, and encoding a finite-float list succeeds. -/
theorem c4_witness :
    encode_message (.float .nan) = .error .invalidNumber ∧
    encode_message (.list [.floatList [.finite 1, .inf]]) = .error .invalidNumber ∧
    is_ok (encode_message (.list [.floatList [.finite 1], .float (.finite 0)])) = true :=
  ⟨(c4_encode_error_iff_non_finite (.float .nan)).1 (by decide),
   (c4_encode_error_iff_non_finite (.list [.floatList [.finite 1, .inf]])).1 (by decide),
   (c4_encode_error_iff_non_finite (.list [.floatList [.finite 1], .float (.finite 0)])).2
     (by decide)⟩

/-- Digit characters written by the write_int loop are at least 0x30. -/
theorem write_int_digits_loop_ge (fuel : Nat) :
    ∀ value d, ∀ b ∈ write_int_digits_loop fuel value d, 48 ≤ b := by
  induction fuel with
  | zero => intro value d b hb; simp [write_int_digits_loop] at hb
  | succ fuel ih =>
    intro value d b hb
    rw [write_int_digits_loop] at hb
    rcases List.mem_cons.mp hb with hb | hb
    · subst hb
      simp [json_int_to_digit]
    · split at hb
      · simp at hb
      · exact ih _ _ b hb

/-- Digit characters written by write_int_digits are at least 0x30. -/
theorem write_int_digits_ge (d : Nat) : ∀ value, ∀ b ∈ write_int_digits value d, 48 ≤ b := by
  intro value b hb
  exact write_int_digits_loop_ge d value d b hb

/-- Every byte of write_int output is printable (at least 0x20). -/
theorem write_int_ge (n : Int) : ∀ b ∈ write_int n, 32 ≤ b := by
  intro b hb
  rw [write_int] at hb
  split at hb
  · simp at hb
    omega
  · rcases List.mem_append.mp hb with hb | hb
    · split at hb <;> simp_all
    · have := write_int_digits_ge _ _ b hb
      omega

/-- Every byte of pad_digits output is a digit character. -/
theorem pad_digits_ge (k : Nat) : ∀ a, ∀ b ∈ pad_digits k a, 48 ≤ b := by
  induction k with
  | zero => intro a b hb; simp [pad_digits] at hb
  | succ k ih =>
    intro a b hb
    rw [pad_digits] at hb
    rcases List.mem_cons.mp hb with hb | hb
    · subst hb
      simp [json_int_to_digit]
    · exact ih _ b hb

/-- Every byte the float formatter produces is printable. -/
theorem g_ascii_dtostr_ge (q : ℚ) : ∀ b ∈ g_ascii_dtostr q, 32 ≤ b := by
  intro b hb
  rw [g_ascii_dtostr] at hb
  simp only [List.mem_append] at hb
  rcases hb with (hb | hb) | hb
  · split at hb <;> simp_all
  · have := write_int_digits_ge _ _ b hb
    omega
  · split at hb
    · simp at hb
    · rcases List.mem_cons.mp hb with hb | hb
      · omega
      · have := pad_digits_ge _ _ b hb
        omega

/-- Every byte of a successful write_double is printable. -/
theorem write_double_ge (x : JFloat) (bs : List Nat) (h : write_double x = .ok bs) :
    ∀ b ∈ bs, 32 ≤ b := by
  intro b hb
  cases x with
  | finite q =>
    simp only [write_double, Except.ok.injEq] at h
    subst h
    rcases List.mem_append.mp hb with hb | hb
    · exact g_ascii_dtostr_ge q b hb
    · split at hb <;> simp_all <;> omega
  | nan => simp [write_double] at h
  | inf => simp [write_double] at h
  | neginf => simp [write_double] at h

/-- Every byte of a Unicode escape is printable: the hex-digit writer
emits characters at or above 0x30 for every nibble. -/
theorem write_unicode_escape_ge (c : Nat) : ∀ b ∈ write_unicode_escape c, 32 ≤ b := by
  intro b hb
  have hx : ∀ v, 32 ≤ json_int_to_xdigit v := by
    intro v
    rw [json_int_to_xdigit]
    split <;> omega
  rw [write_unicode_escape] at hb
  simp only [List.mem_cons, List.not_mem_nil, or_false] at hb
  rcases hb with h | h | h | h | h | h <;> first | omega | (subst h; exact hx _)

/-- Every byte written for one string character is printable. -/
theorem write_string_char_ge (c : Nat) : ∀ b ∈ write_string_char c, 32 ≤ b := by
  intro b hb
  rw [write_string_char] at hb
  repeat' split at hb
  all_goals
    first
    | (exact write_unicode_escape_ge _ b hb)
    | (simp at hb; omega)

/-- Every byte of write_int_list output is printable. -/
theorem write_int_list_ge (xs : List Int) : ∀ b ∈ write_int_list xs, 32 ≤ b := by
  induction xs with
  | nil => simp [write_int_list]
  | cons x xs ih =>
    intro b hb
    rw [write_int_list] at hb
    rcases List.mem_append.mp hb with hb | hb
    · exact write_int_ge x b hb
    · split at hb
      · simp at hb
      · rcases List.mem_cons.mp hb with hb | hb
        · omega
        · exact ih b hb

/-- Every byte of a successful write_float_list is printable. -/
theorem write_float_list_ge (xs : List JFloat) :
    ∀ bs, write_float_list xs = .ok bs → ∀ b ∈ bs, 32 ≤ b := by
  induction xs with
  | nil =>
    intro bs h b hb
    simp only [write_float_list, Except.ok.injEq] at h
    subst h
    simp at hb
  | cons x xs ih =>
    intro bs h b hb
    rw [write_float_list] at h
    rcases hx : write_double x with e | a <;> rw [hx] at h
    · simp at h
    · rcases hxs : write_float_list xs with e | c <;> rw [hxs] at h
      · simp at h
      · simp only [Except.ok.injEq] at h
        subst h
        rcases List.mem_append.mp hb with hb | hb
        · exact write_double_ge x a hx b hb
        · split at hb
          · simp at hb
          · rcases List.mem_cons.mp hb with hb | hb
            · omega
            · exact ih c hxs b hb

/-- Every byte of successful write_list_items output is printable, given
the per-child facts. -/
theorem write_list_items_ge (xs : List FlValue)
    (hm : ∀ x ∈ xs, ∀ bs, write_value x = .ok bs → ∀ b ∈ bs, 32 ≤ b) :
    ∀ bs, write_list_items xs = .ok bs → ∀ b ∈ bs, 32 ≤ b := by
  induction xs with
  | nil =>
    intro bs h b hb
    simp only [write_list_items, Except.ok.injEq] at h
    subst h
    simp at hb
  | cons x xs ih =>
    intro bs h b hb
    rw [write_list_items] at h
    rcases hx : write_value x with e | a <;> rw [hx] at h
    · simp at h
    · rcases hxs : write_list_items xs with e | c <;> rw [hxs] at h
      · simp at h
      · simp only [Except.ok.injEq] at h
        subst h
        rcases List.mem_append.mp hb with hb | hb
        · exact hm x (by simp) a hx b hb
        · split at hb
          · simp at hb
          · rcases List.mem_cons.mp hb with hb | hb
            · omega
            · exact ih (fun y hy => hm y (by simp [hy])) c hxs b hb

/-- Every byte of successful write_map_items output is printable, given
the per-entry facts. -/
theorem write_map_items_ge (ps : List (FlValue × FlValue))
    (hm : ∀ p ∈ ps,
      (∀ bs, write_value p.1 = .ok bs → ∀ b ∈ bs, 32 ≤ b) ∧
      (∀ bs, write_value p.2 = .ok bs → ∀ b ∈ bs, 32 ≤ b)) :
    ∀ bs, write_map_items ps = .ok bs → ∀ b ∈ bs, 32 ≤ b := by
  induction ps with
  | nil =>
    intro bs h b hb
    simp only [write_map_items, Except.ok.injEq] at h
    subst h
    simp at hb
  | cons p ps ih =>
    obtain ⟨k, v⟩ := p
    intro bs h b hb
    rw [write_map_items] at h
    rcases hk : write_value k with e | a <;> rw [hk] at h
    · simp at h
    · rcases hv : write_value v with e | c <;> rw [hv] at h
      · simp at h
      · rcases hps : write_map_items ps with e | d <;> rw [hps] at h
        · simp at h
        · simp only [Except.ok.injEq] at h
          subst h
          rcases List.mem_append.mp hb with hb | hb
          · rcases List.mem_append.mp hb with hb | hb
            · exact (hm (k, v) (by simp)).1 a hk b hb
            · rcases List.mem_cons.mp hb with hb | hb
              · omega
              · exact (hm (k, v) (by simp)).2 c hv b hb
          · split at hb
            · simp at hb
            · rcases List.mem_cons.mp hb with hb | hb
              · omega
              · exact ih (fun q hq => hm q (by simp [hq])) d hps b hb

/-- Every byte of a successful write_value is printable. -/
theorem write_value_bytes_ge (v : FlValue) :
    ∀ bs, write_value v = .ok bs → ∀ b ∈ bs, 32 ≤ b := by
  induction v using FlValue.recOn2 with
  | hnull =>
    intro bs h b hb
    simp only [write_value, Except.ok.injEq] at h
    subst h
    simp at hb
    omega
  | hbool x =>
    intro bs h b hb
    cases x <;>
      (simp only [write_value, Except.ok.injEq] at h
       subst h
       simp at hb
       omega)
  | hint n =>
    intro bs h b hb
    simp only [write_value, Except.ok.injEq] at h
    subst h
    exact write_int_ge n b hb
  | hfloat x =>
    intro bs h b hb
    exact write_double_ge x bs h b hb
  | hstring s =>
    intro bs h b hb
    simp only [write_value, Except.ok.injEq] at h
    subst h
    rcases List.mem_cons.mp hb with hb | hb
    · omega
    · rcases List.mem_append.mp hb with hb | hb
      · obtain ⟨c, _, hc⟩ := List.mem_flatMap.mp hb
        exact write_string_char_ge c b hc
      · simp only [List.mem_singleton] at hb
        omega
  | hu8 xs =>
    intro bs h b hb
    simp only [write_value, Except.ok.injEq] at h
    subst h
    rcases List.mem_cons.mp hb with hb | hb
    · omega
    · rcases List.mem_append.mp hb with hb | hb
      · exact write_int_list_ge _ b hb
      · simp only [List.mem_singleton] at hb
        omega
  | hi32 xs =>
    intro bs h b hb
    simp only [write_value, Except.ok.injEq] at h
    subst h
    rcases List.mem_cons.mp hb with hb | hb
    · omega
    · rcases List.mem_append.mp hb with hb | hb
      · exact write_int_list_ge _ b hb
      · simp only [List.mem_singleton] at hb
        omega
  | hi64 xs =>
    intro bs h b hb
    simp only [write_value, Except.ok.injEq] at h
    subst h
    rcases List.mem_cons.mp hb with hb | hb
    · omega
    · rcases List.mem_append.mp hb with hb | hb
      · exact write_int_list_ge _ b hb
      · simp only [List.mem_singleton] at hb
        omega
  | hfl xs =>
    intro bs h b hb
    simp only [write_value] at h
    rcases hxs : write_float_list xs with e | c <;> rw [hxs] at h
    · simp at h
    · simp only [Except.ok.injEq] at h
      subst h
      rcases List.mem_cons.mp hb with hb | hb
      · omega
      · rcases List.mem_append.mp hb with hb | hb
        · exact write_float_list_ge xs c hxs b hb
        · simp only [List.mem_singleton] at hb
          omega
  | hlist xs ih =>
    intro bs h b hb
    simp only [write_value] at h
    rcases hxs : write_list_items xs with e | c <;> rw [hxs] at h
    · simp at h
    · simp only [Except.ok.injEq] at h
      subst h
      rcases List.mem_cons.mp hb with hb | hb
      · omega
      · rcases List.mem_append.mp hb with hb | hb
        · exact write_list_items_ge xs ih c hxs b hb
        · simp only [List.mem_singleton] at hb
          omega
  | hmap ps ih =>
    intro bs h b hb
    simp only [write_value] at h
    rcases hps : write_map_items ps with e | c <;> rw [hps] at h
    · simp at h
    · simp only [Except.ok.injEq] at h
      subst h
      rcases List.mem_cons.mp hb with hb | hb
      · omega
      · rcases List.mem_append.mp hb with hb | hb
        · refine write_map_items_ge ps (fun p hp => ⟨(ih p hp).1, (ih p hp).2⟩) c hps b hb
        · simp only [List.mem_singleton] at hb
          omega

/-- C10: every byte of a successful encoding is at least 0x20: control
characters inside strings are always replaced by escape sequences,
every other writer emits printable ASCII, and in particular the encoder
never emits the NUL byte the decoder uses as its end sentinel. -/
theorem c10_no_control_bytes (v : FlValue) (bs : List Nat)
    (h : encode_message v = .ok bs) : bs.all (fun b => 32 ≤ b) = true := by
  rw [List.all_eq_true]
  intro b hb
  rw [decide_eq_true_eq]
  have h2 : write_value v = .ok bs := h
  exact write_value_bytes_ge v bs h2 b hb

/-- C10 witness: the encoding of a value mixing every scalar kind, an
escaped control character and a nested map contains only bytes at or
above 0x20. -/
theorem c10_witness :
    ([91, 45, 53, 44, 34, 92, 110, 120, 34, 44, 123, 34, 97, 34, 58, 48,
      46, 53, 125, 93].all (fun b => 32 ≤ b)) = true :=
  c10_no_control_bytes
    (.list [.int (-5), .string [10, 120], .map [(.string [97], .float (.finite (Rat.divInt 1 2)))]])
    [91, 45, 53, 44, 34, 92, 110, 120, 34, 44, 123, 34, 97, 34, 58, 48, 46, 53, 125, 93]
    (by decide)

set_option maxRecDepth 4000 in
/-- C6: the encoder renders the minimum 64-bit integer exactly as the
literal -9223372036854775808, and the decoder reads the literal
9223372036854775807 back as the maximum 64-bit integer. -/
theorem c6_int64_extremes :
    encode_message (.int (-(2 ^ 63))) =
      .ok [45, 57, 50, 50, 51, 51, 55, 50, 48, 51, 54, 56, 53, 52, 55, 55, 53, 56, 48, 56] ∧
    decode_message [57, 50, 50, 51, 51, 55, 50, 48, 51, 54, 56, 53, 52, 55, 55, 53, 56, 48, 55] =
      .ok (.int (2 ^ 63 - 1)) := by
  refine ⟨by decide, by decide⟩

/-- Wrapping twice wraps once. -/
theorem i64_i64 (x : Int) : i64 (i64 x) = i64 x := by
  unfold i64
  omega

/-- Wrapping the accumulator before a multiply-add step does not change
the wrapped result. -/
theorem i64_mul_add (a d : Int) : i64 (i64 a * 10 + d) = i64 (a * 10 + d) := by
  unfold i64
  omega

/-- Wrapping the accumulator before a tenfold step does not change the
wrapped result. -/
theorem i64_mul10 (a : Int) : i64 (i64 a * 10) = i64 (a * 10) := by
  unfold i64
  omega

/-- A unit sign factor commutes with wrapping. -/
theorem i64_sign_mul (s x : Int) (hs : s = 1 ∨ s = -1) :
    i64 (s * i64 x) = i64 (s * x) := by
  rcases hs with h | h <;> subst h <;> unfold i64 <;> omega

/-- Whitespace skipping does not move when the current character is no
whitespace. -/
theorem read_whitespace_id (l : List Nat)
    (h : is_json_whitespace (current_char l) = false) : read_whitespace l = l := by
  cases l with
  | nil => rfl
  | cons c tl =>
    rw [read_whitespace]
    simp only [current_char, List.headD] at h
    simp [h]

/-- Whitespace skipping consumes a whitespace prefix. -/
theorem read_whitespace_append (w : List Nat) (hw : ∀ c ∈ w, is_json_whitespace c = true) :
    ∀ l, read_whitespace (w ++ l) = read_whitespace l := by
  induction w with
  | nil => intro l; rfl
  | cons c tl ih =>
    intro l
    rw [List.cons_append, read_whitespace, if_pos (hw c (by simp))]
    exact ih (fun x hx => hw x (by simp [hx])) l

/-- A non-digit byte converts to the negative sentinel. -/
theorem json_digit_to_int_neg (c : Nat) (h : is_digit_byte c = false) :
    json_digit_to_int c < 0 := by
  rw [is_digit_byte] at h
  rw [json_digit_to_int]
  split
  · rename_i hc
    simp only [Bool.and_eq_false_iff, decide_eq_false_iff_not] at h
    omega
  · omega

/-- A digit byte converts to its value, which is nonnegative. -/
theorem json_digit_to_int_digit (c : Nat) (h : is_digit_byte c = true) :
    json_digit_to_int c = (c : Int) - 48 ∧ 0 ≤ json_digit_to_int c := by
  rw [is_digit_byte] at h
  simp only [Bool.and_eq_true, decide_eq_true_eq] at h
  rw [json_digit_to_int, if_pos (by omega)]
  omega

/-- A digit byte is none of the bytes the number reader treats specially
and no whitespace. -/
theorem digit_byte_facts (c : Nat) (h : is_digit_byte c = true) :
    c ≠ 45 ∧ c ≠ 43 ∧ c ≠ 46 ∧ c ≠ 69 ∧ c ≠ 101 ∧ c ≠ 48 + 10 ∧
      is_json_whitespace c = false ∧ c ≠ 0 := by
  rw [is_digit_byte] at h
  simp only [Bool.and_eq_true, decide_eq_true_eq] at h
  rw [is_json_whitespace]
  refine ⟨by omega, by omega, by omega, by omega, by omega, by omega, ?_, by omega⟩
  simp only [Bool.or_eq_false_iff, decide_eq_false_iff_not]
  omega

/-- read_json_digits consumes exactly a leading digit run, wrapping the
value and the divisor at each step. -/
theorem read_json_digits_append (ds : List Nat) (hds : ∀ c ∈ ds, is_digit_byte c = true)
    (rest : List Nat) (hrest : is_digit_byte (current_char rest) = false) :
    ∀ v d, read_json_digits (ds ++ rest) v d =
      (ds.foldl (fun (a : Int) (c : Nat) => i64 (a * 10 + ((c : Int) - 48))) v,
       ds.foldl (fun (a : Int) (_ : Nat) => i64 (a * 10)) d, rest) := by
  induction ds with
  | nil =>
    intro v d
    simp only [List.nil_append, List.foldl_nil]
    cases rest with
    | nil => rfl
    | cons r t =>
      rw [read_json_digits]
      simp only [current_char, List.headD] at hrest
      rw [if_pos (json_digit_to_int_neg r hrest)]
  | cons c tl ih =>
    intro v d
    have hc := hds c (by simp)
    obtain ⟨hval, hpos⟩ := json_digit_to_int_digit c hc
    rw [List.cons_append, read_json_digits, if_neg (by omega), hval]
    exact ih (fun x hx => hds x (by simp [hx])) _ _

/-- Folding the wrapping step from a wrapped seed equals wrapping the
exact fold. -/
theorem foldl_i64_digits (ds : List Nat) :
    ∀ v : Int, ds.foldl (fun (a : Int) (c : Nat) => i64 (a * 10 + ((c : Int) - 48))) (i64 v) =
      i64 (ds.foldl (fun (a : Int) (c : Nat) => a * 10 + ((c : Int) - 48)) v) := by
  induction ds with
  | nil => intro v; simp [i64_i64]
  | cons c tl ih =>
    intro v
    simp only [List.foldl_cons]
    rw [i64_mul_add, ← ih]

/-- Folding the wrapping tenfold step from a wrapped seed equals wrapping
the power of ten times the seed. -/
theorem foldl_i64_pow10 (ds : List Nat) :
    ∀ d : Int, ds.foldl (fun (a : Int) (_ : Nat) => i64 (a * 10)) (i64 d) =
      i64 (d * 10 ^ ds.length) := by
  induction ds with
  | nil => intro d; simp [i64_i64]
  | cons c tl ih =>
    intro d
    simp only [List.foldl_cons, List.length_cons]
    rw [i64_mul10, ih (d * 10)]
    congr 1
    rw [pow_succ]
    ring

/-- The wrapped value of a digit run read with accumulator zero. -/
theorem read_json_digits_val (ds : List Nat) (hds : ∀ c ∈ ds, is_digit_byte c = true)
    (rest : List Nat) (hrest : is_digit_byte (current_char rest) = false) :
    read_json_digits (ds ++ rest) 0 1 =
      (i64 (digitsVal ds), i64 (10 ^ ds.length), rest) := by
  rw [read_json_digits_append ds hds rest hrest 0 1]
  have h0 : (0 : Int) = i64 0 := by decide
  have h1 : (1 : Int) = i64 1 := by decide
  rw [h0, h1, foldl_i64_digits, foldl_i64_pow10]
  rw [digitsVal]
  norm_num

/-- The integer-part step consumes exactly the rendered integer part. -/
theorem read_json_int_part_render (ip : List Nat) (hne : ip ≠ [])
    (hdig : ∀ c ∈ ip, is_digit_byte c = true) (h0 : ip.headD 0 = 48 → ip = [48])
    (tail : List Nat) (htail : is_digit_byte (current_char tail) = false) :
    read_json_int_part (ip ++ tail) = (i64 (digitsVal ip), tail) := by
  by_cases hz : ip = [48]
  · subst hz
    rw [read_json_int_part, if_pos (by simp [current_char])]
    simp [digitsVal]
    decide
  · cases hip : ip with
    | nil => exact absurd hip hne
    | cons c0 ipt =>
      have hc0 : is_digit_byte c0 = true := hdig c0 (by simp [hip])
      have hc048 : c0 ≠ 48 := by
        intro he
        exact hz (hip ▸ h0 (by simp [hip, he]))
      subst hip
      rw [read_json_int_part, if_neg (by simp [current_char]; omega)]
      rw [read_json_digits_val _ hdig tail htail]

/-- The reader body consumes exactly one rendered literal and produces
its value, whenever no fraction and exponent are present together and
the remainder cannot extend the literal. -/
theorem read_json_number_body_render (sign : Int) (ip : List Nat)
    (frac : Option (List Nat)) (exp : Option (Nat × Option Bool × List Nat))
    (rest : List Nat) (hs : sign = 1 ∨ sign = -1)
    (hipne : ip ≠ []) (hipdig : ∀ c ∈ ip, is_digit_byte c = true)
    (hip0 : ip.headD 0 = 48 → ip = [48])
    (hfr : ∀ fs, frac = some fs → fs ≠ [] ∧ ∀ c ∈ fs, is_digit_byte c = true)
    (hex : ∀ m sg eds, exp = some (m, sg, eds) →
      (m = 69 ∨ m = 101) ∧ eds ≠ [] ∧ ∀ c ∈ eds, is_digit_byte c = true)
    (hne : ¬(frac.isSome ∧ exp.isSome))
    (hb : num_boundary (current_char rest)) :
    read_json_number_body sign
      (ip ++ (render_frac frac ++ (render_exp exp ++ rest)))
      = .ok (eval_num_body sign ip frac exp, rest) := by
  obtain ⟨hb1, hb2, hb3, hb4⟩ := hb
  cases frac with
  | some fs =>
    have hexn : exp = none := by
      cases hxe : exp with
      | none => rfl
      | some q => exact absurd (by simp [hxe]) hne
    subst hexn
    obtain ⟨hfsne, hfsdig⟩ := hfr fs rfl
    rcases fs with - | ⟨f0, ft⟩
    · exact absurd rfl hfsne
    have hf0 : is_digit_byte f0 = true := hfsdig f0 (by simp)
    obtain ⟨hf0v, hf0p⟩ := json_digit_to_int_digit f0 hf0
    have hf0n : ¬ (json_digit_to_int f0 < 0) := by omega
    simp only [render_frac, render_exp, List.cons_append, List.nil_append]
    rw [read_json_number_body]
    rw [read_json_int_part_render ip hipne hipdig hip0 (46 :: (f0 :: (ft ++ rest)))
      (by simp [current_char]; decide)]
    simp only [current_char, List.headD_cons, List.tail_cons]
    rw [if_pos trivial, if_neg hf0n]
    rw [show f0 :: (ft ++ rest) = (f0 :: ft) ++ rest from by simp]
    rw [read_json_digits_val (f0 :: ft) hfsdig rest hb1]
    rw [eval_num_body]
  | none =>
    cases exp with
    | some q =>
      obtain ⟨m, sg, eds⟩ := q
      obtain ⟨hm, hedsne, hedsdig⟩ := hex m sg eds rfl
      rcases eds with - | ⟨e0, et⟩
      · exact absurd rfl hedsne
      have he0 : is_digit_byte e0 = true := hedsdig e0 (by simp)
      obtain ⟨he0v, he0p⟩ := json_digit_to_int_digit e0 he0
      have he0n : ¬ (json_digit_to_int e0 < 0) := by omega
      have he0b : 48 ≤ e0 ∧ e0 ≤ 57 := by
        rw [is_digit_byte] at he0
        simpa using he0
      have hm46 : m ≠ 46 := by omega
      simp only [render_frac, render_exp, List.cons_append, List.nil_append]
      rw [read_json_number_body]
      have hmdig : is_digit_byte m = false := by
        rw [is_digit_byte]
        simp only [Bool.and_eq_false_iff, decide_eq_false_iff_not]
        omega
      rw [read_json_int_part_render ip hipne hipdig hip0 _
        (by simpa [current_char] using hmdig)]
      simp only [current_char, List.headD_cons, List.tail_cons]
      rw [if_neg hm46, if_pos hm]
      cases sg with
      | none =>
        simp only [render_esign, List.nil_append, List.cons_append, List.headD_cons,
          List.tail_cons]
        rw [if_neg (show ¬ (e0 = 45 ∨ e0 = 43) from by omega)]
        simp only [List.headD_cons]
        rw [if_neg (show ¬ e0 = 45 from by omega), if_neg he0n]
        rw [show e0 :: (et ++ rest) = (e0 :: et) ++ rest from by simp]
        rw [read_json_digits_val (e0 :: et) hedsdig rest hb1]
        rw [eval_num_body]
        simp
      | some b =>
        cases b with
        | true =>
          simp only [render_esign, List.nil_append, List.cons_append, List.headD_cons,
            List.tail_cons, true_or, false_or, if_true, if_false]
          rw [if_neg he0n]
          rw [show e0 :: (et ++ rest) = (e0 :: et) ++ rest from by simp]
          rw [read_json_digits_val (e0 :: et) hedsdig rest hb1]
          rw [eval_num_body]
          simp
        | false =>
          simp only [render_esign, List.nil_append, List.cons_append, List.headD_cons,
            List.tail_cons, true_or, false_or, if_true, if_false]
          rw [if_pos (show (43 : Nat) = 45 ∨ True from Or.inr trivial),
            if_neg (show ¬ (43 : Nat) = 45 from by omega)]
          simp only [List.headD_cons]
          rw [if_neg he0n]
          rw [show e0 :: (et ++ rest) = (e0 :: et) ++ rest from by simp]
          rw [read_json_digits_val (e0 :: et) hedsdig rest hb1]
          rw [eval_num_body]
          simp
    | none =>
      simp only [render_frac, render_exp, List.nil_append]
      rw [read_json_number_body]
      rw [read_json_int_part_render ip hipne hipdig hip0 rest hb1]
      rw [if_neg hb2,
        if_neg (show ¬ (current_char rest = 69 ∨ current_char rest = 101) from by
          push_neg
          exact ⟨hb3, hb4⟩)]
      rw [eval_num_body]
      simp only [Except.ok.injEq, Prod.mk.injEq, FlValue.int.injEq, and_true]
      exact i64_sign_mul sign (digitsVal ip) hs

/-- The number reader consumes exactly one rendered well-formed literal,
handling the optional leading minus, and produces its value. -/
theorem read_json_number_render (t : NumTok) (rest : List Nat)
    (hwf : wf_num t) (hb : num_boundary (current_char rest)) :
    read_json_number (render_num t ++ rest) = .ok (eval_num t, rest) := by
  obtain ⟨hipne, hipdig, hip0, hfr, hex, hne⟩ := hwf
  obtain ⟨i0, it, hit⟩ : ∃ i0 it, t.ip = i0 :: it := by
    cases hip : t.ip with
    | nil => exact absurd hip hipne
    | cons a l => exact ⟨a, l, rfl⟩
  have hi0 : is_digit_byte i0 = true := hipdig i0 (by rw [hit]; exact List.mem_cons_self i0 it)
  have hi0b : 48 ≤ i0 ∧ i0 ≤ 57 := by
    have h := hi0
    rw [is_digit_byte] at h
    simpa using h
  have hi0d := (json_digit_to_int_digit i0 hi0).2
  rw [hit] at hipdig hip0
  have hbody := read_json_number_body_render (if t.neg then -1 else 1) (i0 :: it)
    t.frac t.exp rest (by cases t.neg <;> simp) (by simp) hipdig hip0 hfr hex hne hb
  rw [render_num, eval_num, hit]
  cases hneg : t.neg with
  | false =>
    rw [hneg] at hbody
    simp only [Bool.false_eq_true, if_false, List.nil_append, List.cons_append,
      List.append_assoc] at hbody ⊢
    rw [read_json_number]
    simp only [current_char, List.headD_cons, List.tail_cons]
    rw [if_neg (show ¬ i0 = 45 from by omega)]
    exact hbody
  | true =>
    rw [hneg] at hbody
    simp only [if_pos rfl, if_true, List.nil_append, List.cons_append,
      List.append_assoc] at hbody ⊢
    rw [read_json_number]
    simp only [current_char, List.cons_append, List.nil_append, List.headD_cons,
      List.tail_cons, if_true]
    rw [if_neg (show ¬ json_digit_to_int i0 < 0 from by omega)]
    exact hbody

/-- The boolean numeric well-formedness check implies the propositional one. -/
theorem wf_num_of_b (t : NumTok) (h : wf_num_b t = true) : wf_num t := by
  obtain ⟨neg, ip, frac, exp⟩ := t
  rw [wf_num_b] at h
  rw [wf_num]
  simp only [Bool.and_eq_true, Bool.or_eq_true, Bool.not_eq_true', decide_eq_true_eq,
    List.all_eq_true] at h
  obtain ⟨⟨⟨⟨⟨h1, h2⟩, h3⟩, h4⟩, h5⟩, h6⟩ := h
  refine ⟨?_, h2, ?_, ?_, ?_, ?_⟩
  · intro hnil
    rw [show ip = [] from hnil] at h1
    simp at h1
  · intro h48
    rcases h3 with h | h
    · exact absurd h48 h
    · exact h
  · intro fs hfs
    rw [show frac = some fs from hfs] at h4
    simp only [Bool.and_eq_true, Bool.not_eq_true', List.all_eq_true] at h4
    refine ⟨?_, h4.2⟩
    intro hnil
    rw [hnil] at h4
    simp at h4
  · intro m sg es hx
    rw [show exp = some (m, sg, es) from hx] at h5
    simp only [Bool.and_eq_true, Bool.or_eq_true, Bool.not_eq_true', decide_eq_true_eq,
      List.all_eq_true] at h5
    refine ⟨h5.1.1, ?_, h5.2⟩
    intro hnil
    rw [hnil] at h5
    simp at h5
  · intro hcon
    have hc1 : frac.isSome = true := hcon.1
    have hc2 : exp.isSome = true := hcon.2
    rw [hc1, hc2] at h6
    simp at h6

/-- A whitespace byte ends a numeric literal. -/
theorem num_boundary_of_ws (c : Nat) (h : is_json_whitespace c = true) : num_boundary c := by
  rw [is_json_whitespace] at h
  simp only [Bool.or_eq_true, decide_eq_true_eq] at h
  rw [num_boundary, is_digit_byte]
  refine ⟨?_, by omega, by omega, by omega⟩
  simp only [Bool.and_eq_false_iff, decide_eq_false_iff_not]
  omega

/-- The structural bytes and the end sentinel end a numeric literal. -/
theorem num_boundary_struct (c : Nat) (h : c = 44 ∨ c = 93 ∨ c = 125 ∨ c = 0) :
    num_boundary c := by
  rw [num_boundary, is_digit_byte]
  refine ⟨?_, by omega, by omega, by omega⟩
  simp only [Bool.and_eq_false_iff, decide_eq_false_iff_not]
  omega

/-- A numeric-boundary head survives a whitespace run in front. -/
theorem num_boundary_ws_head (w : List Nat) (hw : ∀ b ∈ w, is_json_whitespace b = true)
    (l : List Nat) (hc : num_boundary (current_char l)) :
    num_boundary (current_char (w ++ l)) := by
  cases w with
  | nil => simpa using hc
  | cons b tl =>
    have hb := num_boundary_of_ws b (hw b (by simp))
    simpa [current_char] using hb

/-- Skipping whitespace twice is skipping it once. -/
theorem read_whitespace_idem (l : List Nat) :
    read_whitespace (read_whitespace l) = read_whitespace l := by
  induction l with
  | nil => rfl
  | cons c tl ih =>
    rw [read_whitespace]
    split
    · exact ih
    · rename_i hns
      rw [read_whitespace, if_neg hns]

/-- read_value is insensitive to pre-skipped whitespace. -/
theorem read_value_ws_skip (fuel : Nat) (l : List Nat) :
    read_value (fuel + 1) (read_whitespace l) = read_value (fuel + 1) l := by
  rw [read_value, read_value, read_whitespace_idem]

/-- The array loop is insensitive to pre-skipped whitespace. -/
theorem read_json_array_ws_skip (fuel : Nat) (l : List Nat) (acc : List FlValue) :
    read_json_array (fuel + 1) (read_whitespace l) acc =
      read_json_array (fuel + 1) l acc := by
  rw [read_json_array, read_json_array, read_whitespace_idem]

/-- The object loop is insensitive to pre-skipped whitespace. -/
theorem read_json_object_ws_skip (fuel : Nat) (l : List Nat)
    (acc : List (FlValue × FlValue)) :
    read_json_object (fuel + 1) (read_whitespace l) acc =
      read_json_object (fuel + 1) l acc := by
  rw [read_json_object, read_json_object, read_whitespace_idem]


/-- read_value on a rendered well-formed numeric literal: the whitespace
skip leaves the literal in place, the dispatch picks the number branch
(the head byte is a minus or a digit), and trailing whitespace of the
remainder is skipped after the read. -/
theorem read_value_render_num (fuel : Nat) (t : NumTok) (rest : List Nat)
    (hwf : wf_num t) (hb : num_boundary (current_char rest)) :
    read_value (fuel + 1) (render_num t ++ rest) =
      .ok (eval_num t, read_whitespace rest) := by
  have hnum := read_json_number_render t rest hwf hb
  obtain ⟨i0, it, hit⟩ : ∃ i0 it, t.ip = i0 :: it := by
    cases hip : t.ip with
    | nil => exact absurd hip hwf.1
    | cons a l => exact ⟨a, l, rfl⟩
  have hi0 : is_digit_byte i0 = true := hwf.2.1 i0 (by rw [hit]; exact List.mem_cons_self i0 it)
  have hi0b : 48 ≤ i0 ∧ i0 ≤ 57 := by
    rw [is_digit_byte] at hi0
    simpa using hi0
  obtain ⟨c, rs, hcrs, hc⟩ : ∃ c rs, render_num t ++ rest = c :: rs ∧
      (c = 45 ∨ (48 ≤ c ∧ c ≤ 57)) := by
    rw [render_num, hit]
    cases t.neg with
    | false =>
      exact ⟨i0, it ++ (render_frac t.frac ++ (render_exp t.exp ++ rest)),
        by simp, Or.inr hi0b⟩
    | true =>
      exact ⟨45, i0 :: (it ++ (render_frac t.frac ++ (render_exp t.exp ++ rest))),
        by simp, Or.inl rfl⟩
  have hcw : is_json_whitespace c = false := by
    rw [is_json_whitespace]
    simp only [Bool.or_eq_false_iff, decide_eq_false_iff_not]
    omega
  have hnum0 : c = 45 ∨ 0 ≤ json_digit_to_int c := by
    rcases hc with h | h
    · exact Or.inl h
    · right
      rw [json_digit_to_int, if_pos (by omega)]
      omega
  have hws : read_whitespace (c :: rs) = c :: rs := by
    rw [read_whitespace, if_neg (by rw [hcw]; exact Bool.false_ne_true)]
  rw [hcrs, read_value]
  simp only [hws, current_char, List.headD_cons]
  rw [if_neg (show ¬ c = 123 from by omega), if_neg (show ¬ c = 91 from by omega),
    if_neg (show ¬ c = 34 from by omega), if_pos hnum0]
  rw [← hcrs, hnum]

/-- C9: integer digit accumulation wraps modulo 2 to the 64: for every
well-formed integer literal (optional minus then digits, a leading zero
only as the lone zero), however large, decoding reports no error and
returns the literal's signed value reduced into the signed 64-bit range
by wrapping. -/
theorem c9_int64_wrap (neg : Bool) (ds : List Nat)
    (hne : ds ≠ []) (hdig : ∀ c ∈ ds, is_digit_byte c = true)
    (h0 : ds.headD 0 = 48 → ds = [48]) :
    decode_message (render_num ⟨neg, ds, none, none⟩) =
      .ok (.int (i64 ((if neg then -1 else 1) * digitsVal ds))) := by
  have hwf : wf_num ⟨neg, ds, none, none⟩ := by
    refine ⟨hne, hdig, h0, ?_, ?_, ?_⟩ <;> simp
  have hb : num_boundary (current_char ([] : List Nat)) := by
    rw [num_boundary]
    refine ⟨by decide, by decide, by decide, by decide⟩
  have h := read_value_render_num
    (2 * (render_num (⟨neg, ds, none, none⟩ : NumTok)).length + 1)
    ⟨neg, ds, none, none⟩ [] hwf hb
  rw [List.append_nil] at h
  have h2 : read_value (2 * (render_num (⟨neg, ds, none, none⟩ : NumTok)).length + 2)
      (render_num ⟨neg, ds, none, none⟩) =
      .ok (eval_num ⟨neg, ds, none, none⟩, read_whitespace []) := h
  rw [decode_message, h2]
  rfl

/-- Concrete instances of C9: the 20-digit literal one above 2 to the 64
decodes to the integer 1, and the most negative 64-bit integer literal
decodes to itself without error. -/
theorem c9_int64_wrap_witness :
    decode_message [49, 56, 52, 52, 54, 55, 52, 52, 48, 55, 51, 55, 48, 57,
      53, 53, 49, 54, 49, 55] = .ok (.int 1) ∧
    decode_message [45, 57, 50, 50, 51, 51, 55, 50, 48, 51, 54, 56, 53, 52,
      55, 55, 53, 56, 48, 56] = .ok (.int (-9223372036854775808)) := by
  constructor
  · have h := c9_int64_wrap false
      [49, 56, 52, 52, 54, 55, 52, 52, 48, 55, 51, 55, 48, 57, 53, 53, 49, 54, 49, 55]
      (by decide) (by decide) (by decide)
    rw [show render_num ⟨false,
      [49, 56, 52, 52, 54, 55, 52, 52, 48, 55, 51, 55, 48, 57, 53, 53, 49, 54, 49, 55],
      none, none⟩ =
      [49, 56, 52, 52, 54, 55, 52, 52, 48, 55, 51, 55, 48, 57, 53, 53, 49, 54, 49, 55]
      from rfl] at h
    rw [h]
    decide
  · have h := c9_int64_wrap true
      [57, 50, 50, 51, 51, 55, 50, 48, 51, 54, 56, 53, 52, 55, 55, 53, 56, 48, 56]
      (by decide) (by decide) (by decide)
    rw [show render_num ⟨true,
      [57, 50, 50, 51, 51, 55, 50, 48, 51, 54, 56, 53, 52, 55, 55, 53, 56, 48, 56],
      none, none⟩ =
      [45, 57, 50, 50, 51, 51, 55, 50, 48, 51, 54, 56, 53, 52, 55, 55, 53, 56, 48, 56]
      from rfl] at h
    rw [h]
    decide

/-- decode_message of one rendered well-formed numeric literal with nothing
around it: ample fuel, the number read, and an empty remainder. -/
theorem decode_render_num (t : NumTok) (hwf : wf_num t) :
    decode_message (render_num t) = .ok (eval_num t) := by
  have hb : num_boundary (current_char ([] : List Nat)) :=
    ⟨by decide, by decide, by decide, by decide⟩
  have h := read_value_render_num (2 * (render_num t).length + 1) t [] hwf hb
  rw [List.append_nil] at h
  have h2 : read_value (2 * (render_num t).length + 2) (render_num t) =
      .ok (eval_num t, read_whitespace []) := h
  rw [decode_message, h2]
  rfl

set_option maxRecDepth 8000 in
/-- C8 counterexample: the literal 2.5e2 is syntactically well formed, yet
decode fails with AdditionalData 2 because the number reader's stale
lookahead never reaches the exponent after a fraction; so it is not the
case that every well-formed numeric literal decodes successfully. -/
theorem c8_counterexample :
    decode_message [50, 46, 53, 101, 50] = .error (.additionalData 2) := by
  decide

set_option maxRecDepth 8000 in
/-- C8 (amended): decode checks no magnitude.  Every well-formed literal
that does not combine a fraction with an exponent decodes successfully to
its value; in particular 1e999 decodes to positive infinity, a value the
encoder then rejects as an invalid number, so encode-after-decode fails
for it. -/
theorem c8_no_magnitude_check :
    (∀ t : NumTok, wf_num t → decode_message (render_num t) = .ok (eval_num t)) ∧
    decode_message [49, 101, 57, 57, 57] = .ok (.float .inf) ∧
    encode_message (.float .inf) = .error .invalidNumber := by
  refine ⟨fun t hwf => decode_render_num t hwf, by decide, by decide⟩

/-- A concrete instance of C8: the integer literal -42 is well formed and
decodes to the integer it denotes. -/
theorem c8_witness : decode_message [45, 52, 50] = .ok (.int (-42)) := by
  have h := c8_no_magnitude_check.1 ⟨true, [52, 50], none, none⟩
    (by refine ⟨by decide, by decide, by decide, ?_, ?_, ?_⟩ <;> simp)
  rw [show render_num ⟨true, [52, 50], none, none⟩ = [45, 52, 50] from rfl] at h
  rw [h]
  decide

/-- The string loop passes plain content straight through up to the
closing quote, with any fuel above the content length. -/
theorem read_json_string_loop_plain (s rest : List Nat) (fuel : Nat)
    (hp : ∀ b ∈ s, plain_str_byte b = true) (hf : s.length < fuel) :
    read_json_string_loop fuel (s ++ 34 :: rest) = .ok (s, rest) := by
  induction s generalizing fuel with
  | nil =>
    cases fuel with
    | zero => omega
    | succ f =>
      rw [List.nil_append, read_json_string_loop, if_pos rfl]
  | cons c tl ih =>
    cases fuel with
    | zero => omega
    | succ f =>
      have hc := hp c (by simp)
      rw [plain_str_byte] at hc
      simp only [Bool.and_eq_true, decide_eq_true_eq] at hc
      rw [List.cons_append, read_json_string_loop,
        if_neg (show ¬ c = 34 from by omega), if_neg (show ¬ c = 92 from by omega),
        if_neg (show ¬ c = 0 from by omega),
        if_neg (show ¬ (c < 32 ∨ 128 ≤ c) from by push_neg; omega)]
      rw [ih f (fun b hb => hp b (by simp [hb])) (by simp at hf; omega)]

/-- The string reader passes plain content straight through up to the
closing quote. -/
theorem read_json_string_plain (s rest : List Nat)
    (hp : ∀ b ∈ s, plain_str_byte b = true) :
    read_json_string (s ++ 34 :: rest) = .ok (s, rest) := by
  rw [read_json_string]
  refine read_json_string_loop_plain s rest _ hp ?_
  simp only [List.length_append, List.length_cons]
  omega

/-- A simple escape letter resolves to its character and consumes one
byte. -/
theorem read_json_string_escape_simple (e : Nat) (l : List Nat)
    (h : is_simple_esc e = true) :
    read_json_string_escape (e :: l) = .ok (esc_char_val e, l) := by
  rw [is_simple_esc] at h
  simp only [Bool.or_eq_true, decide_eq_true_eq] at h
  rcases h with ((((((rfl | rfl) | rfl) | rfl) | rfl) | rfl) | rfl) | rfl <;> rfl

/-- One accepted hexadecimal digit byte reads to its value. -/
theorem read_xdigit_ok (c : Nat) (l : List Nat) (h : is_xdigit_byte c = true) :
    read_xdigit (c :: l) = .ok (xdval c, l) := by
  rw [is_xdigit_byte] at h
  simp only [decide_eq_true_eq] at h
  rw [read_xdigit, xdval]
  rw [if_neg (show ¬ json_xdigit_to_int (current_char (c :: l)) < 0 from by
    rw [current_char, List.headD_cons]; omega)]
  rw [current_char, List.headD_cons, List.tail_cons]

/-- The string reader consumes rendered well-formed content up to the
closing quote and accumulates its evaluation: raw bytes pass through,
escapes append the UTF-8 encoding of the escaped character. -/
theorem read_json_string_loop_content (s : List SChar) : ∀ (rest : List Nat) (fuel : Nat),
    (∀ ch ∈ s, wfSChar ch = true) → (renderS s).length < fuel →
    read_json_string_loop fuel (renderS s ++ 34 :: rest) = .ok (evalS s, rest) := by
  induction s with
  | nil =>
    intro rest fuel _ hf
    cases fuel with
    | zero => simp at hf
    | succ f =>
      rw [show renderS [] = [] from rfl, List.nil_append, read_json_string_loop,
        if_pos rfl]
      rfl
  | cons ch tl ih =>
    intro rest fuel hw hf
    have hch := hw ch (by simp)
    cases ch with
    | raw c =>
      rw [wfSChar] at hch
      simp only [Bool.and_eq_true, decide_eq_true_eq] at hch
      obtain ⟨⟨⟨hc1, hc2⟩, hc3⟩, hc4⟩ := hch
      cases fuel with
      | zero => simp at hf
      | succ f =>
        rw [show renderS (.raw c :: tl) = c :: renderS tl from rfl] at hf ⊢
        rw [List.cons_append, read_json_string_loop,
          if_neg hc3, if_neg hc4,
          if_neg (show ¬ c = 0 from by omega),
          if_neg (show ¬ (c < 32 ∨ 128 ≤ c) from by push_neg; omega)]
        rw [ih rest f (fun x hx => hw x (by simp [hx])) (by
          simp only [List.length_cons] at hf; omega)]
        rfl
    | esc e =>
      rw [wfSChar] at hch
      have he117 : e ≠ 117 := by
        rw [is_simple_esc] at hch
        simp only [Bool.or_eq_true, decide_eq_true_eq] at hch
        rcases hch with ((((((rfl | rfl) | rfl) | rfl) | rfl) | rfl) | rfl) | rfl <;> decide
      cases fuel with
      | zero => simp at hf
      | succ f =>
        rw [show renderS (.esc e :: tl) = 92 :: e :: renderS tl from rfl] at hf ⊢
        rw [List.cons_append, List.cons_append, read_json_string_loop,
          if_neg (show ¬ (92 : Nat) = 34 from by decide), if_pos rfl]
        rw [read_json_string_escape_simple e _ hch]
        simp only []
        rw [ih rest f (fun x hx => hw x (by simp [hx])) (by
          simp only [List.length_cons] at hf; omega)]
        rfl
    | uesc a b c d =>
      rw [wfSChar] at hch
      simp only [Bool.and_eq_true] at hch
      obtain ⟨⟨⟨ha, hb⟩, hc⟩, hd⟩ := hch
      cases fuel with
      | zero => simp at hf
      | succ f =>
        rw [show renderS (.uesc a b c d :: tl) =
          92 :: 117 :: a :: b :: c :: d :: renderS tl from rfl] at hf ⊢
        simp only [List.cons_append]
        rw [read_json_string_loop,
          if_neg (show ¬ (92 : Nat) = 34 from by decide), if_pos rfl]
        rw [read_json_string_escape,
          if_pos (show current_char (117 :: a :: b :: c :: d :: (renderS tl ++ 34 :: rest)) =
            117 from rfl)]
        rw [show (117 : Nat) :: a :: b :: c :: d :: (renderS tl ++ 34 :: rest) =
          117 :: (a :: b :: c :: d :: (renderS tl ++ 34 :: rest)) from rfl]
        rw [show ((117 : Nat) :: (a :: b :: c :: d :: (renderS tl ++ 34 :: rest))).tail =
          a :: b :: c :: d :: (renderS tl ++ 34 :: rest) from rfl]
        rw [read_json_unichar_code, read_xdigit_ok a _ ha]
        simp only []
        rw [read_xdigit_ok b _ hb]
        simp only []
        rw [read_xdigit_ok c _ hc]
        simp only []
        rw [read_xdigit_ok d _ hd]
        simp only []
        rw [ih rest f (fun x hx => hw x (by simp [hx])) (by
          simp only [List.length_cons] at hf; omega)]
        rfl

/-- Wrapper: read_json_string on rendered well-formed content followed by
the closing quote. -/
theorem read_json_string_content (s : List SChar) (rest : List Nat)
    (hw : ∀ ch ∈ s, wfSChar ch = true) :
    read_json_string (renderS s ++ 34 :: rest) = .ok (evalS s, rest) := by
  rw [read_json_string]
  refine read_json_string_loop_content s rest _ hw ?_
  simp only [List.length_append, List.length_cons]
  omega

/-- The first byte of a rendered well-formed document is never whitespace
and never a structural closer, comma, colon or the end sentinel. -/
theorem renderDoc_head (d : JDoc) (hwf : WfD d = true) :
    ∃ c cs, renderDoc d = c :: cs ∧ is_json_whitespace c = false ∧
      c ≠ 0 ∧ c ≠ 93 ∧ c ≠ 125 ∧ c ≠ 44 ∧ c ≠ 58 := by
  cases d with
  | jnull => exact ⟨110, _, rfl, by decide, by decide, by decide, by decide, by decide, by decide⟩
  | jbool b =>
    cases b with
    | true => exact ⟨116, _, rfl, by decide, by decide, by decide, by decide, by decide, by decide⟩
    | false => exact ⟨102, _, rfl, by decide, by decide, by decide, by decide, by decide, by decide⟩
  | jnum t =>
    have hw : wf_num t := wf_num_of_b t hwf
    obtain ⟨i0, it, hit⟩ : ∃ i0 it, t.ip = i0 :: it := by
      cases hip : t.ip with
      | nil => exact absurd hip hw.1
      | cons a l => exact ⟨a, l, rfl⟩
    have hi0 : is_digit_byte i0 = true := hw.2.1 i0 (by rw [hit]; exact List.mem_cons_self i0 it)
    have hi0b : 48 ≤ i0 ∧ i0 ≤ 57 := by
      rw [is_digit_byte] at hi0
      simpa using hi0
    rw [renderDoc, render_num, hit]
    cases t.neg with
    | false =>
      refine ⟨i0, it ++ render_frac t.frac ++ render_exp t.exp, by simp, ?_, by omega,
        by omega, by omega, by omega, by omega⟩
      rw [is_json_whitespace]
      simp only [Bool.or_eq_false_iff, decide_eq_false_iff_not]
      omega
    | true =>
      exact ⟨45, (i0 :: it) ++ render_frac t.frac ++ render_exp t.exp, by simp, by decide,
        by decide, by decide, by decide, by decide, by decide⟩
  | jstr s =>
    exact ⟨34, _, rfl, by decide, by decide, by decide, by decide, by decide, by decide⟩
  | jarr items wsE =>
    cases items with
    | inil => exact ⟨91, _, rfl, by decide, by decide, by decide, by decide, by decide, by decide⟩
    | icons pre d post rest =>
      exact ⟨91, _, rfl, by decide, by decide, by decide, by decide, by decide, by decide⟩
  | jobj entries wsE =>
    cases entries with
    | enil => exact ⟨123, _, rfl, by decide, by decide, by decide, by decide, by decide, by decide⟩
    | econs kpre k kpost vpre d vpost rest =>
      exact ⟨123, _, rfl, by decide, by decide, by decide, by decide, by decide, by decide⟩

/-- What follows an array element is a numeric boundary: whitespace, a
comma, or the closing bracket. -/
theorem num_boundary_renderTail (items : JItems) (wsE rest : List Nat)
    (hws : ∀ b ∈ wsE, is_json_whitespace b = true) :
    num_boundary (current_char (renderTail items ++ (wsE ++ 93 :: rest))) := by
  cases items with
  | inil =>
    rw [renderTail, List.nil_append]
    exact num_boundary_ws_head wsE hws _
      (by simpa [current_char] using num_boundary_struct 93 (by simp))
  | icons pre d post r =>
    rw [renderTail]
    simpa [current_char] using num_boundary_struct 44 (by simp)

/-- What follows an object value is a numeric boundary: whitespace, a
comma, or the closing brace. -/
theorem num_boundary_renderETail (entries : JEntries) (wsE rest : List Nat)
    (hws : ∀ b ∈ wsE, is_json_whitespace b = true) :
    num_boundary (current_char (renderETail entries ++ (wsE ++ 125 :: rest))) := by
  cases entries with
  | enil =>
    rw [renderETail, List.nil_append]
    exact num_boundary_ws_head wsE hws _
      (by simpa [current_char] using num_boundary_struct 125 (by simp))
  | econs kpre k kpost vpre d vpost r =>
    rw [renderETail]
    simpa [current_char] using num_boundary_struct 44 (by simp)

/-- fl_value_set never returns the empty entry list. -/
theorem fl_value_set_ne_nil (ps : List (FlValue × FlValue)) (k v : FlValue) :
    fl_value_set ps k v ≠ [] := by
  rw [fl_value_set]
  split
  · rename_i h
    intro hm
    rw [List.map_eq_nil_iff] at hm
    rw [hm] at h
    simp at h
  · simp

/-- Skipping whitespace leaves a list with a non-whitespace head alone. -/
theorem read_whitespace_cons_nws (c : Nat) (l : List Nat)
    (h : is_json_whitespace c = false) : read_whitespace (c :: l) = c :: l := by
  rw [read_whitespace, if_neg (by rw [h]; exact Bool.false_ne_true)]

/-- Skipping whitespace consumes exactly a whitespace run in front of a
non-whitespace head. -/
theorem read_whitespace_over (w : List Nat) (hw : ∀ b ∈ w, is_json_whitespace b = true)
    (l : List Nat) (hl : is_json_whitespace (current_char l) = false) :
    read_whitespace (w ++ l) = l := by
  rw [read_whitespace_append w hw l]
  exact read_whitespace_id l hl

/-- Head facts of a rendered well-formed document followed by anything:
not whitespace, not a closer, comma, colon or the sentinel. -/
theorem renderDoc_head_facts (d : JDoc) (hwf : WfD d = true) (X : List Nat) :
    is_json_whitespace (current_char (renderDoc d ++ X)) = false ∧
    current_char (renderDoc d ++ X) ≠ 0 ∧ current_char (renderDoc d ++ X) ≠ 93 ∧
    current_char (renderDoc d ++ X) ≠ 125 ∧ current_char (renderDoc d ++ X) ≠ 44 ∧
    current_char (renderDoc d ++ X) ≠ 58 := by
  obtain ⟨c0, cs, hcrs, h1, h2, h3, h4, h5, h6⟩ := renderDoc_head d hwf
  rw [hcrs]
  simp only [List.cons_append, current_char, List.headD_cons]
  exact ⟨h1, h2, h3, h4, h5, h6⟩

/-- Every document costs at least one unit of fuel. -/
theorem sizeD_pos (d : JDoc) : 1 ≤ sizeD d := by
  cases d <;> rw [sizeD] <;> omega

/-- Every item list costs at least one unit of fuel. -/
theorem sizeI_pos (items : JItems) : 1 ≤ sizeI items := by
  cases items <;> rw [sizeI] <;> omega

/-- Every entry list costs at least one unit of fuel. -/
theorem sizeE_pos (entries : JEntries) : 1 ≤ sizeE entries := by
  cases entries <;> rw [sizeE] <;> omega

/-- The reader follows a rendered well-formed decorated document exactly:
read_value consumes its bytes and produces its value (then skips the
whitespace after it), and the array and object loops consume the
remaining rendered items behind their commas up to the closing bracket,
for any fuel at least the document's size. -/
theorem parse_render_all (fuel : Nat) :
    (∀ d rest, WfD d = true → num_boundary (current_char rest) → sizeD d ≤ fuel →
      read_value fuel (renderDoc d ++ rest) = .ok (evalDoc d, read_whitespace rest)) ∧
    (∀ items wsE rest acc, WfI items = true →
      (∀ b ∈ wsE, is_json_whitespace b = true) → acc ≠ [] → sizeI items ≤ fuel →
      read_json_array fuel (renderTail items ++ (wsE ++ 93 :: rest)) acc =
        .ok (.list (acc ++ evalItems items), rest)) ∧
    (∀ entries wsE rest acc, WfE entries = true →
      (∀ b ∈ wsE, is_json_whitespace b = true) → acc ≠ [] → sizeE entries ≤ fuel →
      read_json_object fuel (renderETail entries ++ (wsE ++ 125 :: rest)) acc =
        .ok (.map (evalEntries acc entries), rest)) := by
  induction fuel using Nat.strong_induction_on with
  | _ fuel ih =>
  refine ⟨?_, ?_, ?_⟩
  · intro d rest hwf hb hfuel
    cases d with
    | jnull =>
      obtain ⟨f, rfl⟩ : ∃ f, fuel = f + 1 := ⟨fuel - 1, by rw [sizeD] at hfuel; omega⟩
      rw [renderDoc, evalDoc, read_value]
      simp +decide only [List.cons_append, List.nil_append, List.append_eq,
        read_whitespace, is_json_whitespace, current_char, List.headD_cons,
        List.tail_cons, read_word, json_digit_to_int, if_true, if_false]
    | jbool b =>
      obtain ⟨f, rfl⟩ : ∃ f, fuel = f + 1 := ⟨fuel - 1, by rw [sizeD] at hfuel; omega⟩
      cases b with
      | true =>
        rw [renderDoc, evalDoc, read_value]
        simp +decide only [List.cons_append, List.nil_append, List.append_eq,
          read_whitespace, is_json_whitespace, current_char, List.headD_cons,
          List.tail_cons, read_word, json_digit_to_int, if_true, if_false]
      | false =>
        rw [renderDoc, evalDoc, read_value]
        simp +decide only [List.cons_append, List.nil_append, List.append_eq,
          read_whitespace, is_json_whitespace, current_char, List.headD_cons,
          List.tail_cons, read_word, json_digit_to_int, if_true, if_false]
    | jnum t =>
      obtain ⟨f, rfl⟩ : ∃ f, fuel = f + 1 := ⟨fuel - 1, by rw [sizeD] at hfuel; omega⟩
      rw [renderDoc, evalDoc]
      exact read_value_render_num f t rest (wf_num_of_b t (by rwa [WfD] at hwf)) hb
    | jstr str =>
      obtain ⟨f, rfl⟩ : ∃ f, fuel = f + 1 := ⟨fuel - 1, by rw [sizeD] at hfuel; omega⟩
      have hs : ∀ ch ∈ str, wfSChar ch = true := by
        rw [WfD] at hwf
        exact List.all_eq_true.mp hwf
      rw [renderDoc, evalDoc, read_value]
      simp only [List.cons_append, List.append_assoc, List.nil_append]
      rw [read_whitespace_cons_nws 34 _ (by decide)]
      simp +decide only [current_char, List.headD_cons, List.tail_cons, if_true, if_false]
      rw [read_json_string_content str rest hs]
    | jarr items wsE =>
      have hws2 : ∀ b ∈ wsE, is_json_whitespace b = true := by
        rw [WfD] at hwf
        simp only [Bool.and_eq_true, List.all_eq_true] at hwf
        exact hwf.2
      have hwi : WfI items = true := by
        rw [WfD] at hwf
        simp only [Bool.and_eq_true] at hwf
        exact hwf.1
      obtain ⟨f, rfl⟩ : ∃ f, fuel = f + 1 := ⟨fuel - 1, by
        rw [sizeD] at hfuel
        have := sizeI_pos items
        omega⟩
      have hf : sizeI items ≤ f := by rw [sizeD] at hfuel; omega
      cases items with
      | inil =>
        obtain ⟨g, rfl⟩ : ∃ g, f = g + 1 := ⟨f - 1, by rw [sizeI] at hf; omega⟩
        rw [renderDoc, evalDoc, read_value]
        simp only [List.cons_append, List.append_assoc, List.nil_append]
        rw [read_whitespace_cons_nws 91 _ (by decide)]
        simp +decide only [current_char, List.headD_cons, List.tail_cons, if_true, if_false]
        rw [read_json_array]
        rw [read_whitespace_over wsE hws2 (93 :: rest)
          (by simp +decide [current_char, is_json_whitespace])]
        simp +decide only [current_char, List.headD_cons, List.tail_cons, evalItems, if_true, if_false]
      | icons pre d post rest2 =>
        rw [WfI] at hwi
        simp only [Bool.and_eq_true, List.all_eq_true] at hwi
        obtain ⟨⟨⟨hpre, hd⟩, hpost⟩, hrest⟩ := hwi
        obtain ⟨g, rfl⟩ : ∃ g, f = g + 1 := ⟨f - 1, by rw [sizeI] at hf; omega⟩
        have hgd : sizeD d ≤ g := by rw [sizeI] at hf; omega
        have hgr : sizeI rest2 ≤ g := by rw [sizeI] at hf; omega
        obtain ⟨g2, rfl⟩ : ∃ g2, g = g2 + 1 := ⟨g - 1, by have := sizeD_pos d; omega⟩
        rw [renderDoc, evalDoc, read_value]
        simp only [List.cons_append, List.append_assoc, List.nil_append]
        rw [read_whitespace_cons_nws 91 _ (by decide)]
        simp +decide only [current_char, List.headD_cons, List.tail_cons, if_true, if_false]
        rw [read_json_array]
        rw [read_whitespace_over pre hpre _ (renderDoc_head_facts d hd _).1]
        rw [if_neg (renderDoc_head_facts d hd _).2.1,
          if_neg (renderDoc_head_facts d hd _).2.2.1]
        simp +decide only [List.isEmpty_nil, if_true, if_false]
        rw [(ih (g2 + 1) (by omega)).1 d _ hd
          (num_boundary_ws_head post hpost _ (num_boundary_renderTail rest2 wsE rest hws2))
          hgd]
        rw [read_whitespace_append post hpost]
        simp +decide only []
        rw [read_json_array_ws_skip g2 _ _]
        rw [(ih (g2 + 1) (by omega)).2.1 rest2 wsE rest ([] ++ [evalDoc d]) hrest hws2
          (by simp) hgr]
        simp [evalItems]
    | jobj entries wsE =>
      have hws2 : ∀ b ∈ wsE, is_json_whitespace b = true := by
        rw [WfD] at hwf
        simp only [Bool.and_eq_true, List.all_eq_true] at hwf
        exact hwf.2
      have hwe : WfE entries = true := by
        rw [WfD] at hwf
        simp only [Bool.and_eq_true] at hwf
        exact hwf.1
      obtain ⟨f, rfl⟩ : ∃ f, fuel = f + 1 := ⟨fuel - 1, by
        rw [sizeD] at hfuel
        have := sizeE_pos entries
        omega⟩
      have hf : sizeE entries ≤ f := by rw [sizeD] at hfuel; omega
      cases entries with
      | enil =>
        obtain ⟨g, rfl⟩ : ∃ g, f = g + 1 := ⟨f - 1, by rw [sizeE] at hf; omega⟩
        rw [renderDoc, evalDoc, read_value]
        simp only [List.cons_append, List.append_assoc, List.nil_append]
        rw [read_whitespace_cons_nws 123 _ (by decide)]
        simp +decide only [current_char, List.headD_cons, List.tail_cons, if_true, if_false]
        rw [read_json_object]
        rw [read_whitespace_over wsE hws2 (125 :: rest)
          (by simp +decide [current_char, is_json_whitespace])]
        simp +decide only [current_char, List.headD_cons, List.tail_cons, evalEntries, if_true, if_false]
      | econs kpre k kpost vpre d vpost rest2 =>
        rw [WfE] at hwe
        simp only [Bool.and_eq_true, List.all_eq_true] at hwe
        obtain ⟨⟨⟨⟨⟨⟨hkpre, hk⟩, hkpost⟩, hvpre⟩, hd⟩, hvpost⟩, hrest⟩ := hwe
        obtain ⟨g, rfl⟩ : ∃ g, f = g + 1 := ⟨f - 1, by rw [sizeE] at hf; omega⟩
        have hgd : sizeD d ≤ g := by rw [sizeE] at hf; omega
        have hgr : sizeE rest2 ≤ g := by rw [sizeE] at hf; omega
        obtain ⟨g2, rfl⟩ : ∃ g2, g = g2 + 1 := ⟨g - 1, by have := sizeD_pos d; omega⟩
        rw [renderDoc, evalDoc, read_value]
        simp only [List.cons_append, List.append_assoc, List.nil_append]
        rw [read_whitespace_cons_nws 123 _ (by decide)]
        simp +decide only [current_char, List.headD_cons, List.tail_cons, if_true, if_false]
        rw [read_json_object]
        rw [read_whitespace_over kpre hkpre _
          (by simp +decide [current_char, is_json_whitespace])]
        simp +decide only [current_char, List.headD_cons, List.tail_cons, List.isEmpty_nil, if_true, if_false]
        rw [read_json_string_content k _ hk]
        simp +decide only []
        rw [read_whitespace_over kpost hkpost _
          (by simp +decide [current_char, is_json_whitespace])]
        simp +decide only [current_char, List.headD_cons, List.tail_cons, if_true, if_false]
        rw [← read_value_ws_skip g2 _]
        rw [read_whitespace_over vpre hvpre _ (renderDoc_head_facts d hd _).1]
        rw [(ih (g2 + 1) (by omega)).1 d _ hd
          (num_boundary_ws_head vpost hvpost _
            (num_boundary_renderETail rest2 wsE rest hws2))
          hgd]
        rw [read_whitespace_append vpost hvpost]
        simp +decide only []
        rw [read_json_object_ws_skip g2 _ _]
        rw [(ih (g2 + 1) (by omega)).2.2 rest2 wsE rest
          (fl_value_set [] (.string (trunc_nul (evalS k))) (evalDoc d)) hrest hws2
          (fl_value_set_ne_nil _ _ _) hgr]
        simp [evalEntries]
  · intro items wsE rest acc hwi hws2 hacc hfuel
    cases items with
    | inil =>
      obtain ⟨g, rfl⟩ : ∃ g, fuel = g + 1 := ⟨fuel - 1, by rw [sizeI] at hfuel; omega⟩
      rw [renderTail, List.nil_append, read_json_array]
      rw [read_whitespace_over wsE hws2 (93 :: rest)
        (by simp +decide [current_char, is_json_whitespace])]
      simp +decide only [current_char, List.headD_cons, List.tail_cons, evalItems,
        List.append_nil, if_true, if_false]
    | icons pre d post rest2 =>
      rw [WfI] at hwi
      simp only [Bool.and_eq_true, List.all_eq_true] at hwi
      obtain ⟨⟨⟨hpre, hd⟩, hpost⟩, hrest⟩ := hwi
      obtain ⟨g, rfl⟩ : ∃ g, fuel = g + 1 := ⟨fuel - 1, by rw [sizeI] at hfuel; omega⟩
      have hgd : sizeD d ≤ g := by rw [sizeI] at hfuel; omega
      have hgr : sizeI rest2 ≤ g := by rw [sizeI] at hfuel; omega
      obtain ⟨g2, rfl⟩ : ∃ g2, g = g2 + 1 := ⟨g - 1, by have := sizeD_pos d; omega⟩
      have hacc2 : acc.isEmpty = false := by
        cases acc with
        | nil => exact absurd rfl hacc
        | cons a tl => rfl
      rw [renderTail]
      simp only [List.cons_append, List.append_assoc, List.nil_append]
      rw [read_json_array]
      rw [read_whitespace_cons_nws 44 _ (by decide)]
      simp +decide only [current_char, List.headD_cons, List.tail_cons, if_true, if_false]
      rw [hacc2]
      simp +decide only []
      rw [read_comma]
      simp +decide only [current_char, List.headD_cons, List.tail_cons, if_true, if_false]
      rw [read_whitespace_over pre hpre _ (renderDoc_head_facts d hd _).1]
      rw [(ih (g2 + 1) (by omega)).1 d _ hd
        (num_boundary_ws_head post hpost _ (num_boundary_renderTail rest2 wsE rest hws2))
        hgd]
      rw [read_whitespace_append post hpost]
      simp +decide only []
      rw [read_json_array_ws_skip g2 _ _]
      rw [(ih (g2 + 1) (by omega)).2.1 rest2 wsE rest (acc ++ [evalDoc d]) hrest hws2
        (by simp) hgr]
      simp [evalItems]
  · intro entries wsE rest acc hwe hws2 hacc hfuel
    cases entries with
    | enil =>
      obtain ⟨g, rfl⟩ : ∃ g, fuel = g + 1 := ⟨fuel - 1, by rw [sizeE] at hfuel; omega⟩
      rw [renderETail, List.nil_append, read_json_object]
      rw [read_whitespace_over wsE hws2 (125 :: rest)
        (by simp +decide [current_char, is_json_whitespace])]
      simp +decide only [current_char, List.headD_cons, List.tail_cons, evalEntries, if_true, if_false]
    | econs kpre k kpost vpre d vpost rest2 =>
      rw [WfE] at hwe
      simp only [Bool.and_eq_true, List.all_eq_true] at hwe
      obtain ⟨⟨⟨⟨⟨⟨hkpre, hk⟩, hkpost⟩, hvpre⟩, hd⟩, hvpost⟩, hrest⟩ := hwe
      obtain ⟨g, rfl⟩ : ∃ g, fuel = g + 1 := ⟨fuel - 1, by rw [sizeE] at hfuel; omega⟩
      have hgd : sizeD d ≤ g := by rw [sizeE] at hfuel; omega
      have hgr : sizeE rest2 ≤ g := by rw [sizeE] at hfuel; omega
      obtain ⟨g2, rfl⟩ : ∃ g2, g = g2 + 1 := ⟨g - 1, by have := sizeD_pos d; omega⟩
      have hacc2 : acc.isEmpty = false := by
        cases acc with
        | nil => exact absurd rfl hacc
        | cons a tl => rfl
      rw [renderETail]
      simp only [List.cons_append, List.append_assoc, List.nil_append]
      rw [read_json_object]
      rw [read_whitespace_cons_nws 44 _ (by decide)]
      simp +decide only [current_char, List.headD_cons, List.tail_cons, if_true, if_false]
      rw [hacc2]
      simp +decide only []
      rw [read_comma]
      simp +decide only [current_char, List.headD_cons, List.tail_cons, if_true, if_false]
      rw [read_whitespace_over kpre hkpre _
        (by simp +decide [current_char, is_json_whitespace])]
      simp +decide only [current_char, List.headD_cons, List.tail_cons, if_true, if_false]
      rw [read_json_string_content k _ hk]
      simp +decide only []
      rw [read_whitespace_over kpost hkpost _
        (by simp +decide [current_char, is_json_whitespace])]
      simp +decide only [current_char, List.headD_cons, List.tail_cons, if_true, if_false]
      rw [← read_value_ws_skip g2 _]
      rw [read_whitespace_over vpre hvpre _ (renderDoc_head_facts d hd _).1]
      rw [(ih (g2 + 1) (by omega)).1 d _ hd
        (num_boundary_ws_head vpost hvpost _
          (num_boundary_renderETail rest2 wsE rest hws2))
        hgd]
      rw [read_whitespace_append vpost hvpost]
      simp +decide only []
      rw [read_json_object_ws_skip g2 _ _]
      rw [(ih (g2 + 1) (by omega)).2.2 rest2 wsE rest
        (fl_value_set acc (.string (trunc_nul (evalS k))) (evalDoc d)) hrest hws2
        (fl_value_set_ne_nil _ _ _) hgr]
      simp [evalEntries]

mutual

/-- The fuel bound of a document is within twice its rendered length. -/
theorem sizeD_le_render (d : JDoc) : sizeD d ≤ 2 * (renderDoc d).length + 1 := by
  cases d with
  | jnull => simp [sizeD, renderDoc]
  | jbool b => cases b <;> simp [sizeD, renderDoc]
  | jnum t => simp [sizeD, renderDoc]
  | jstr s => simp [sizeD, renderDoc]
  | jarr items wsE =>
    cases items with
    | inil =>
      simp only [sizeD, sizeI, renderDoc, List.length_cons, List.length_append]
      omega
    | icons pre d2 post rest =>
      have h1 := sizeD_le_render d2
      have h2 := sizeI_le_render rest
      rw [sizeD, sizeI, renderDoc]
      simp only [List.length_cons, List.length_append]
      omega
  | jobj entries wsE =>
    cases entries with
    | enil =>
      simp only [sizeD, sizeE, renderDoc, List.length_cons, List.length_append]
      omega
    | econs kpre k kpost vpre d2 vpost rest =>
      have h1 := sizeD_le_render d2
      have h2 := sizeE_le_render rest
      rw [sizeD, sizeE, renderDoc]
      simp only [List.length_cons, List.length_append]
      omega

/-- The fuel bound of trailing items is within twice their rendered length. -/
theorem sizeI_le_render (items : JItems) :
    sizeI items ≤ 2 * (renderTail items).length + 1 := by
  cases items with
  | inil => simp [sizeI, renderTail]
  | icons pre d2 post rest =>
    have h1 := sizeD_le_render d2
    have h2 := sizeI_le_render rest
    rw [sizeI, renderTail]
    simp only [List.length_cons, List.length_append]
    omega

/-- The fuel bound of trailing entries is within twice their rendered length. -/
theorem sizeE_le_render (entries : JEntries) :
    sizeE entries ≤ 2 * (renderETail entries).length + 1 := by
  cases entries with
  | enil => simp [sizeE, renderETail]
  | econs kpre k kpost vpre d2 vpost rest =>
    have h1 := sizeD_le_render d2
    have h2 := sizeE_le_render rest
    rw [sizeE, renderETail]
    simp only [List.length_cons, List.length_append]
    omega

end

mutual

/-- The value of a document only depends on its token skeleton. -/
theorem evalDoc_stripD (d : JDoc) : evalDoc (stripD d) = evalDoc d := by
  cases d with
  | jnull => rfl
  | jbool b => rfl
  | jnum t => rfl
  | jstr s => rfl
  | jarr items wsE => rw [stripD, evalDoc, evalDoc, evalItems_stripI]
  | jobj entries wsE => rw [stripD, evalDoc, evalDoc, evalEntries_stripE]

/-- The values of array items only depend on their token skeletons. -/
theorem evalItems_stripI (items : JItems) : evalItems (stripI items) = evalItems items := by
  cases items with
  | inil => rfl
  | icons pre d post rest =>
    rw [stripI, evalItems, evalItems, evalDoc_stripD, evalItems_stripI]

/-- The accumulated entries of an object only depend on the token skeletons. -/
theorem evalEntries_stripE (acc : List (FlValue × FlValue)) (entries : JEntries) :
    evalEntries acc (stripE entries) = evalEntries acc entries := by
  cases entries with
  | enil => rfl
  | econs kpre k kpost vpre d vpost rest =>
    rw [stripE, evalEntries, evalEntries, evalDoc_stripD, evalEntries_stripE]

end

/-- decode_message of one rendered well-formed document surrounded by
any amount of top-level whitespace. -/
theorem decode_render_doc_ws (d : JDoc) (w1 w2 : List Nat) (hwf : WfD d = true)
    (hw1 : ∀ b ∈ w1, is_json_whitespace b = true)
    (hw2 : ∀ b ∈ w2, is_json_whitespace b = true) :
    decode_message (w1 ++ (renderDoc d ++ w2)) = .ok (evalDoc d) := by
  have hb : num_boundary (current_char w2) := by
    cases w2 with
    | nil => exact ⟨by decide, by decide, by decide, by decide⟩
    | cons c tl => exact num_boundary_of_ws c (hw2 c (by simp))
  have hwsnil : read_whitespace w2 = [] := by
    have h := read_whitespace_over w2 hw2 [] (by decide)
    rwa [List.append_nil] at h
  rw [decode_message]
  obtain ⟨f, hf⟩ : ∃ f, 2 * (w1 ++ (renderDoc d ++ w2)).length + 2 = f + 1 :=
    ⟨2 * (w1 ++ (renderDoc d ++ w2)).length + 1, rfl⟩
  have hsize : sizeD d ≤ f + 1 := by
    have h1 := sizeD_le_render d
    have h2 : (w1 ++ (renderDoc d ++ w2)).length =
        w1.length + ((renderDoc d).length + w2.length) := by
      simp [List.length_append]
    omega
  rw [hf]
  rw [← read_value_ws_skip f (w1 ++ (renderDoc d ++ w2))]
  rw [read_whitespace_append w1 hw1]
  rw [read_value_ws_skip f (renderDoc d ++ w2)]
  rw [(parse_render_all (f + 1)).1 d w2 hwf hb hsize]
  rw [hwsnil]
  rfl

/-- C7: whitespace insensitivity.  Two well-formed decorated documents
with the same token skeleton (the same input up to the whitespace runs
standing between tokens, outside string and number literals), each
surrounded by any top-level whitespace, both decode successfully, to
the same value. -/
theorem c7_whitespace_insensitivity (d1 d2 : JDoc) (w1 w2 w3 w4 : List Nat)
    (h1 : WfD d1 = true) (h2 : WfD d2 = true)
    (hw1 : ∀ b ∈ w1, is_json_whitespace b = true)
    (hw2 : ∀ b ∈ w2, is_json_whitespace b = true)
    (hw3 : ∀ b ∈ w3, is_json_whitespace b = true)
    (hw4 : ∀ b ∈ w4, is_json_whitespace b = true)
    (hsk : stripD d1 = stripD d2) :
    decode_message (w1 ++ (renderDoc d1 ++ w2)) = .ok (evalDoc d1) ∧
    decode_message (w3 ++ (renderDoc d2 ++ w4)) = .ok (evalDoc d1) := by
  refine ⟨decode_render_doc_ws d1 w1 w2 h1 hw1 hw2, ?_⟩
  rw [decode_render_doc_ws d2 w3 w4 h2 hw3 hw4]
  rw [← evalDoc_stripD d1, ← evalDoc_stripD d2, hsk]

/-- A concrete instance of C7: the inputs [1] and a copy with spaces
inserted around the element and around the whole document decode to the
same value. -/
theorem c7_witness :
    decode_message [91, 49, 93] = decode_message [32, 91, 32, 49, 32, 93, 32] := by
  have h := c7_whitespace_insensitivity
    (.jarr (.icons [] (.jnum ⟨false, [49], none, none⟩) [] .inil) [])
    (.jarr (.icons [32] (.jnum ⟨false, [49], none, none⟩) [32] .inil) [])
    [] [] [32] [32]
    (by decide) (by decide) (by decide) (by decide) (by decide) (by decide) rfl
  rw [show ([] : List Nat) ++
      (renderDoc (.jarr (.icons [] (.jnum ⟨false, [49], none, none⟩) [] .inil) []) ++
        []) = [91, 49, 93] from rfl] at h
  rw [show ([32] : List Nat) ++
      (renderDoc (.jarr (.icons [32] (.jnum ⟨false, [49], none, none⟩) [32] .inil) []) ++
        [32]) = [32, 91, 32, 49, 32, 93, 32] from rfl] at h
  exact h.1.trans h.2.symm

/-- Plain string content passes the NUL-truncation untouched. -/
theorem trunc_nul_plain (s : List Nat) (hp : ∀ b ∈ s, plain_str_byte b = true) :
    trunc_nul s = s := by
  rw [trunc_nul]
  induction s with
  | nil => rfl
  | cons c tl ih =>
    have hc := hp c (by simp)
    rw [plain_str_byte] at hc
    simp only [Bool.and_eq_true, decide_eq_true_eq] at hc
    rw [List.takeWhile_cons_of_pos (by simp only [bne_iff_ne, ne_eq]; omega)]
    rw [ih (fun b hb => hp b (by simp [hb]))]

/-- The writer emits plain string content byte for byte: nothing is
truncated and no byte needs an escape. -/
theorem write_string_plain (s : List Nat) (hp : ∀ b ∈ s, plain_str_byte b = true) :
    (s.takeWhile (fun b => b != 0)).flatMap write_string_char = s := by
  induction s with
  | nil => rfl
  | cons c tl ih =>
    have hc := hp c (by simp)
    rw [plain_str_byte] at hc
    simp only [Bool.and_eq_true, decide_eq_true_eq] at hc
    rw [List.takeWhile_cons_of_pos (by simp only [bne_iff_ne, ne_eq]; omega)]
    rw [List.flatMap_cons]
    rw [ih (fun b hb => hp b (by simp [hb]))]
    rw [write_string_char]
    rw [if_neg (show ¬ c = 34 from by omega), if_neg (show ¬ c = 92 from by omega),
      if_neg (show ¬ c = 8 from by omega), if_neg (show ¬ c = 12 from by omega),
      if_neg (show ¬ c = 10 from by omega), if_neg (show ¬ c = 13 from by omega),
      if_neg (show ¬ c = 9 from by omega),
      if_neg (show ¬ (c < 32 ∨ 128 ≤ c) from by push_neg; omega)]
    rfl

end FlJson




